import Mathlib

/-!
Verification development for the Blender animation-curve JSON
importer/exporter (`fcurve_io.py`).

The source file is shallowly embedded: keyframes, fcurves and actions
become Lean structures; JSON numbers become an explicit sum type so that
Python's `float()` coercion and raw property assignment can be told
apart; dictionary field access becomes `Option` plus a `keyError`, and
Python exceptions become an error component threaded through each
operation, with mutations performed before the raising point preserved
(Python in-place mutation semantics).
-/

set_option maxRecDepth 4000

namespace AnimIO

/-- Channel key: `(data_path, array_index)`, exactly the pair the source
uses to identify an fcurve. -/
abbrev Key := String × Int

/-- One Blender keyframe control point, with the attributes the source
reads and writes (`keyframe_to_json` / `insert_keyframes`).  Numeric
values are modelled as rationals: the source only copies and compares
them, so no floating-point rounding is involved. -/
structure Keyframe where
  co : ℚ × ℚ
  amplitude : ℚ
  back : ℚ
  easing : String
  handle_left : ℚ × ℚ
  handle_left_type : String
  handle_right : ℚ × ℚ
  handle_right_type : String
  interpolation : String
  period : ℚ
  type : String
deriving DecidableEq, Repr

/-- The keyframe object as Blender's `keyframe_points.insert(frame,
value, keyframe_type)` initially creates it, before the importer sets
the remaining attributes.  The host's initial attribute values are
irrelevant to every claim (the success path overwrites all of them). -/
def Keyframe.fresh (t v : ℚ) (ty : String) : Keyframe :=
  { co := (t, v), amplitude := 0, back := 0, easing := "AUTO",
    handle_left := (t, v), handle_left_type := "FREE",
    handle_right := (t, v), handle_right_type := "FREE",
    interpolation := "BEZIER", period := 0, type := ty }

/-- An fcurve as the importer sees it: key plus time-ordered control
points. -/
structure FCurve where
  data_path : String
  array_index : Int
  points : List Keyframe
deriving DecidableEq, Repr

/-- An action on the import side: the `action.fcurves` collection. -/
structure Action where
  name : String
  fcurves : List FCurve
deriving DecidableEq, Repr

/-- A JSON number-ish value: what a lenient producer may put in a
numeric field.  `int`/`real` are JSON numbers, `str` a JSON string. -/
inductive JNum where
  | int (n : ℤ)
  | real (q : ℚ)
  | str (s : String)
deriving DecidableEq, Repr

/-- Python exceptions the embedded code can raise.  `noActiveAction`
models the `ValueError` raised by `FCurveResolverMixin.execute` when the
target object has no animation data or no active action;
`jsonDecodeError` models a `json.loads` failure. -/
inductive PyError where
  | keyError (field : String)
  | typeError
  | valueError
  | jsonDecodeError
  | noActiveAction
deriving DecidableEq, Repr

/-- The spec's `MalformedDocumentError` class: every document-related
exception (parse failure, missing field, ill-typed field), as opposed to
the missing-action precondition violation. -/
def isMDE : PyError → Bool
  | .noActiveAction => false
  | _ => true

/-- One keyframe record of the JSON document, as a Python dict: every
field may be absent (access raises `KeyError`), and numeric fields may
hold ints, floats or strings. -/
structure RawRecord where
  data_path : Option String
  group : Option String
  array_index : Option Int
  amplitude : Option JNum
  back : Option JNum
  co : Option (List JNum)
  easing : Option String
  handle_left : Option (List JNum)
  handle_left_type : Option String
  handle_right : Option (List JNum)
  handle_right_type : Option String
  interpolation : Option String
  period : Option JNum
  type : Option String
deriving DecidableEq, Repr

/-- The parsed action document: `{name, keyframes}`, each field absent
when the JSON object lacks it. -/
structure RawDoc where
  name : Option String
  keyframes : Option (List RawRecord)
deriving DecidableEq, Repr

/-- Dict field access: `d[field]`, raising `KeyError` when absent. -/
def getField {α : Type} (o : Option α) (field : String) : Except PyError α :=
  match o with
  | none => .error (.keyError field)
  | some a => .ok a

/-- Digits of a decimal literal to a natural number. -/
def digitsToNat (acc : Nat) : List Char → Option Nat
  | [] => some acc
  | c :: cs => if c.isDigit then digitsToNat (10 * acc + (c.toNat - 48)) cs else none

/-- Unsigned decimal part of Python's `float(str)`. -/
def parseUnsigned (l : List Char) : Option ℚ :=
  match l.span Char.isDigit with
  | (intPart, rest) =>
    match rest with
    | [] =>
      if intPart.isEmpty then none
      else (digitsToNat 0 intPart).map (fun n => (n : ℚ))
    | '.' :: frac =>
      if intPart.isEmpty && frac.isEmpty then none
      else if frac.all Char.isDigit then
        match digitsToNat 0 intPart, digitsToNat 0 frac with
        | some ip, some fp => some ((ip : ℚ) + (fp : ℚ) / ((10 : ℚ) ^ frac.length))
        | _, _ => none
      else none
    | _ => none

/-- Python `float(str)` on plain decimal literals (optional sign,
digits, optional fractional part).  Exponent and whitespace forms of the
host parser are not modelled; no claim depends on them. -/
def parseFloat (s : String) : Option ℚ :=
  match s.toList with
  | '-' :: rest => (parseUnsigned rest).map Neg.neg
  | '+' :: rest => parseUnsigned rest
  | l => parseUnsigned l

/-- Python's `float(x)` builtin as applied by the importer: ints and
floats convert, strings are parsed (raising `ValueError` when they do
not parse). -/
def pyFloat : JNum → Except PyError ℚ
  | .int n => .ok (n : ℚ)
  | .real q => .ok q
  | .str s =>
    match parseFloat s with
    | some q => .ok q
    | none => .error .valueError

/-- Assigning a value to a Blender float property without `float()`
coercion (as the source does for `period` and for the `co` insert
arguments): Python ints and floats are accepted, strings raise
`TypeError`. -/
def assignFloat : JNum → Except PyError ℚ
  | .int n => .ok (n : ℚ)
  | .real q => .ok q
  | .str _ => .error .typeError

/-- The `*keyframe['co']` splat into `keyframe_points.insert`: exactly
two numeric arguments, anything else raises `TypeError`. -/
def coMk : List JNum → Except PyError (ℚ × ℚ)
  | [a, b] =>
    match assignFloat a with
    | .error e => .error e
    | .ok x =>
      match assignFloat b with
      | .error e => .error e
      | .ok y => .ok (x, y)
  | _ => .error .typeError

/-- The `[float(v) for v in ...]` comprehension over a handle list. -/
def floatList : List JNum → Except PyError (List ℚ)
  | [] => .ok []
  | x :: rest =>
    match pyFloat x with
    | .error e => .error e
    | .ok q =>
      match floatList rest with
      | .error e => .error e
      | .ok qs => .ok (q :: qs)

/-- Assigning a float list to a 2-component handle vector: any length
other than two raises. -/
def toVec2 : List ℚ → Except PyError (ℚ × ℚ)
  | [a, b] => .ok (a, b)
  | _ => .error .typeError

/-- Blender's `keyframe_points.insert(frame, value, keyframe_type)`:
points are kept ordered by time; inserting at an existing time updates
that point in place rather than adding a second point at the same
frame. -/
def insertPoint (t v : ℚ) (ty : String) : List Keyframe → List Keyframe
  | [] => [Keyframe.fresh t v ty]
  | p :: rest =>
    if t < p.co.1 then Keyframe.fresh t v ty :: p :: rest
    else if t = p.co.1 then { p with co := (t, v), type := ty } :: rest
    else p :: insertPoint t v ty rest

/-- Mutation through the Python reference to the newly inserted
keyframe: the point at time `t` is updated.  Under the distinct-times
invariant exactly one point matches, which identifies the reference
semantics with this map. -/
def setAtTime (t : ℚ) (f : Keyframe → Keyframe) (pts : List Keyframe) : List Keyframe :=
  pts.map (fun p => if p.co.1 = t then f p else p)

/-- Index of the first fcurve matching both `data_path` and
`array_index` — the first curve the source's `touch_fcurve` loop does
not skip. -/
def findKey : List FCurve → String → Int → Option Nat
  | [], _, _ => none
  | fc :: rest, dp, ai =>
    if fc.data_path = dp ∧ fc.array_index = ai then some 0
    else (findKey rest dp ai).map (· + 1)

/-- Removal of the list element at an index (`action.fcurves.remove`). -/
def removeIdx {α : Type} : List α → Nat → List α
  | [], _ => []
  | _ :: rest, 0 => rest
  | x :: rest, n + 1 => x :: removeIdx rest n

/-- In-place update of the list element at an index. -/
def modifyIdx {α : Type} (f : α → α) : Nat → List α → List α
  | _, [] => []
  | 0, x :: rest => f x :: rest
  | n + 1, x :: rest => x :: modifyIdx f n rest

/-- Update of one fcurve of an action through its index (the Python
reference returned by `touch_fcurve`). -/
def setCurve (a : Action) (i : Nat) (f : FCurve → FCurve) : Action :=
  { a with fcurves := modifyIdx f i a.fcurves }

/-- Lookup of the channel for a key, as an observer: the first fcurve
matching `(data_path, array_index)`. -/
def lookupFC (a : Action) (dp : String) (ai : Int) : Option FCurve :=
  match findKey a.fcurves dp ai with
  | some i => a.fcurves.get? i
  | none => none

/-- `FCurveImporterMixin.touch_fcurve`: find the first matching curve;
return it unless replacing, in which case it is removed and a fresh
empty curve for the key is created (Blender appends new fcurves at the
end).  The returned index is the position of the grabbed/created
curve. -/
def touchFCurve (a : Action) (dp : String) (ai : Int) (replace : Bool) : Action × Nat :=
  match findKey a.fcurves dp ai with
  | some i =>
    if replace then
      let rest := removeIdx a.fcurves i
      ({ a with fcurves := rest ++ [{ data_path := dp, array_index := ai, points := [] }] },
       rest.length)
    else (a, i)
  | none =>
    ({ a with fcurves := a.fcurves ++ [{ data_path := dp, array_index := ai, points := [] }] },
     a.fcurves.length)

/-- The condition `filter and (data_path, array_index) not in filter`:
a `None` filter or an empty set is falsy, so nothing is skipped. -/
def skips (filt : Option (List Key)) (k : Key) : Bool :=
  match filt with
  | none => false
  | some F => !F.isEmpty && !F.contains k

/-- `replaced.add(key)` on the Python set. -/
def insertKey (rep : List Key) (k : Key) : List Key :=
  if k ∈ rep then rep else k :: rep

/-- The key of a record, when both key fields are present. -/
def recKeyOf (r : RawRecord) : Option Key :=
  match r.data_path, r.array_index with
  | some dp, some ai => some (dp, ai)
  | _, _ => none

/-- Whether the filter makes the loop skip this record: both key fields
read successfully and the truthy-filter test excludes the key. -/
def skipsRec (filt : Option (List Key)) (r : RawRecord) : Bool :=
  match recKeyOf r with
  | some k => skips filt k
  | none => false

/-- The attribute assignments of `insert_keyframes` after the insert, in
source order; each entry is the computed value (which may raise) paired
as a keyframe update. -/
def attrSetters (r : RawRecord) : List (Except PyError (Keyframe → Keyframe)) :=
  [ ((getField r.amplitude "amplitude").bind pyFloat).map (fun q kf => { kf with amplitude := q }),
    ((getField r.back "back").bind pyFloat).map (fun q kf => { kf with back := q }),
    (getField r.easing "easing").map (fun s kf => { kf with easing := s }),
    (((getField r.handle_left "handle_left").bind floatList).bind toVec2).map
      (fun p kf => { kf with handle_left := p }),
    (getField r.handle_left_type "handle_left_type").map (fun s kf => { kf with handle_left_type := s }),
    (((getField r.handle_right "handle_right").bind floatList).bind toVec2).map
      (fun p kf => { kf with handle_right := p }),
    (getField r.handle_right_type "handle_right_type").map (fun s kf => { kf with handle_right_type := s }),
    (getField r.interpolation "interpolation").map (fun s kf => { kf with interpolation := s }),
    ((getField r.period "period").bind assignFloat).map (fun q kf => { kf with period := q }) ]

/-- Application of the attribute assignments to the referenced keyframe,
stopping at the first raising one; mutations already performed stay (the
exception propagates out of Python code that mutated in place). -/
def applyAttrs (a : Action) (i : Nat) (t : ℚ) (rep : List Key) :
    List (Except PyError (Keyframe → Keyframe)) → Action × List Key × Option PyError
  | [] => (a, rep, none)
  | .error e :: _ => (a, rep, some e)
  | .ok f :: rest =>
    applyAttrs (setCurve a i (fun fc => { fc with points := setAtTime t f fc.points })) i t rep rest

/-- The part of the loop body after `touch_fcurve` and the replaced-set
update: the `co`/`type` reads, the point insert through the grabbed
curve's index, and the attribute assignments. -/
def processAfterTouch (a1 : Action) (i : Nat) (rep1 : List Key) (r : RawRecord) :
    Action × List Key × Option PyError :=
  match r.co with
  | none => (a1, rep1, some (.keyError "co"))
  | some co =>
    match r.type with
    | none => (a1, rep1, some (.keyError "type"))
    | some ty =>
      match coMk co with
      | .error e => (a1, rep1, some e)
      | .ok tv =>
        applyAttrs
          (setCurve a1 i (fun fc => { fc with points := insertPoint tv.1 tv.2 ty fc.points }))
          i tv.1 rep1 (attrSetters r)

/-- The body of the `for keyframe in keyframe_data` loop of
`insert_keyframes`, for one record: field reads, the filter check,
`touch_fcurve`, replaced-set tracking, the point insert and the
attribute assignments, in source order.  Returns the state as mutated so
far together with the exception, if one was raised. -/
def processRecord (filt : Option (List Key)) (rc : Bool) (a : Action) (rep : List Key)
    (r : RawRecord) : Action × List Key × Option PyError :=
  match r.data_path with
  | none => (a, rep, some (.keyError "data_path"))
  | some dp =>
    match r.array_index with
    | none => (a, rep, some (.keyError "array_index"))
    | some ai =>
      if skips filt (dp, ai) then (a, rep, none)
      else
        processAfterTouch
          (touchFCurve a dp ai (rc && !(rep.contains (dp, ai)))).1
          (touchFCurve a dp ai (rc && !(rep.contains (dp, ai)))).2
          (if rc then insertKey rep (dp, ai) else rep) r

/-- The record loop of `insert_keyframes`: records are processed in
order until one raises. -/
def insertLoop (filt : Option (List Key)) (rc : Bool) :
    Action → List Key → List RawRecord → Action × List Key × Option PyError
  | a, rep, [] => (a, rep, none)
  | a, rep, r :: rest =>
    match processRecord filt rc a rep r with
    | (a', rep', none) => insertLoop filt rc a' rep' rest
    | (a', rep', some e) => (a', rep', some e)

/-- `FCurveImporterMixin.insert_keyframes(action, keyframe_data, filter,
replace_curve)`: the replaced set starts empty for each call. -/
def insertKeyframes (a : Action) (doc : List RawRecord) (filt : Option (List Key))
    (rc : Bool) : Action × Option PyError :=
  match insertLoop filt rc a [] doc with
  | (a', _, e) => (a', e)

/-- `obj.animation_data`: holds the optional active action. -/
structure AnimData where
  action : Option Action
deriving DecidableEq, Repr

/-- The target Blender object, as far as the importers touch it. -/
structure Obj where
  animation_data : Option AnimData
deriving DecidableEq, Repr

/-- `FCurveResolverMixin.execute` (shared by the curve replacer and the
curve merger), given the outcome of `json.loads` on the opened file: a
parse failure propagates before anything is touched; then the
no-active-action precondition check; then `insert_keyframes` with the
variant's `replace_curve` flag.  The mutated object is returned
alongside the raised exception, if any. -/
def resolverExecute (parsed : Except PyError RawDoc) (obj : Obj) (rc : Bool) :
    Obj × Option PyError :=
  match parsed with
  | .error e => (obj, some e)
  | .ok d =>
    match obj.animation_data with
    | none => (obj, some .noActiveAction)
    | some ad =>
      match ad.action with
      | none => (obj, some .noActiveAction)
      | some action =>
        match d.keyframes with
        | none => (obj, some (.keyError "keyframes"))
        | some kfs =>
          match insertKeyframes action kfs none rc with
          | (a', e) =>
            ({ obj with animation_data := some { ad with action := some a' } }, e)

/-- `ANIMIO_OT_action_importer.execute`: parse; clear the object's
animation data; create fresh animation data and a new action named from
the document; import every record into it (default arguments: no
filter, `replace_curve=True`). -/
def actionImporterExecute (parsed : Except PyError RawDoc) (obj : Obj) :
    Obj × Option PyError :=
  match parsed with
  | .error e => (obj, some e)
  | .ok d =>
    match d.name with
    | none => ({ obj with animation_data := some { action := none } }, some (.keyError "name"))
    | some nm =>
      match d.keyframes with
      | none =>
        ({ obj with animation_data := some { action := some { name := nm, fcurves := [] } } },
         some (.keyError "keyframes"))
      | some kfs =>
        match insertKeyframes { name := nm, fcurves := [] } kfs none true with
        | (a', e) =>
          ({ obj with animation_data := some { action := some a' } }, e)

/-- An export-side channel: key, underlying control points and the
storage form.  `convert_to_keyframes` / `convert_to_samples` toggle the
form; per the add-on's glossary the conversion is lossless for export
purposes, so the underlying points are preserved (the frame-range
arguments of the host calls are absorbed by this losslessness). -/
structure Channel where
  data_path : String
  array_index : Int
  points : List Keyframe
  isSampled : Bool
deriving DecidableEq, Repr

/-- `channel.keyframe_points`: empty while the channel stores its data
in sampled form. -/
def Channel.keyframePoints (ch : Channel) : List Keyframe :=
  if ch.isSampled then [] else ch.points

/-- `channel.convert_to_keyframes(...)`. -/
def Channel.convertToKeyframes (ch : Channel) : Channel :=
  { ch with isSampled := false }

/-- `channel.convert_to_samples(...)`. -/
def Channel.convertToSamples (ch : Channel) : Channel :=
  { ch with isSampled := true }

/-- The export-side container: the active action's organizational
groups, each holding its channels (`action.groups` / `group.channels`,
the only view the exporter reads). -/
structure ExpAction where
  name : String
  groups : List (String × List Channel)
deriving DecidableEq, Repr

/-- `keyframe_to_json`: the flat record emitted for one keyframe,
carrying the channel's path and index and the group name.  All fields
are present and numeric fields hold JSON numbers. -/
def keyframeToJson (kf : Keyframe) (dp : String) (ai : Int) (g : String) : RawRecord :=
  { data_path := some dp, group := some g, array_index := some ai,
    amplitude := some (.real kf.amplitude), back := some (.real kf.back),
    co := some [.real kf.co.1, .real kf.co.2],
    easing := some kf.easing,
    handle_left := some [.real kf.handle_left.1, .real kf.handle_left.2],
    handle_left_type := some kf.handle_left_type,
    handle_right := some [.real kf.handle_right.1, .real kf.handle_right.2],
    handle_right_type := some kf.handle_right_type,
    interpolation := some kf.interpolation,
    period := some (.real kf.period), type := some kf.type }

/-- The per-channel body of the exporter's loop: detect sampled storage
(`if not channel.keyframe_points`), convert for the duration, emit one
record per keyframe, convert back. -/
def exportChannel (g : String) (ch : Channel) : List RawRecord × Channel :=
  let sampled := ch.keyframePoints.isEmpty
  let ch1 := if sampled then ch.convertToKeyframes else ch
  let records := ch1.keyframePoints.map
    (fun kf => keyframeToJson kf ch1.data_path ch1.array_index g)
  let ch2 := if sampled then ch1.convertToSamples else ch1
  (records, ch2)

/-- The exporter's loop over one group's channels. -/
def exportChannels (g : String) : List Channel → List RawRecord × List Channel
  | [] => ([], [])
  | ch :: rest =>
    let rc := exportChannel g ch
    let rr := exportChannels g rest
    (rc.1 ++ rr.1, rc.2 :: rr.2)

/-- The exporter's loop over the action's groups. -/
def exportGroups : List (String × List Channel) → List RawRecord × List (String × List Channel)
  | [] => ([], [])
  | (g, chs) :: rest =>
    let rc := exportChannels g chs
    let rr := exportGroups rest
    (rc.1 ++ rr.1, (g, rc.2) :: rr.2)

/-- `ANIMIO_OT_fcurve_exporter.execute` without the host glue: the
document built from the active action, together with the container as
the conversion round-trips leave it. -/
def exportAction (ea : ExpAction) : RawDoc × ExpAction :=
  let rg := exportGroups ea.groups
  ({ name := some ea.name, keyframes := some rg.1 }, { ea with groups := rg.2 })

/-- All channels of the export container, across groups, in export
order. -/
def channelsOf (ea : ExpAction) : List Channel :=
  (ea.groups.map Prod.snd).join

/-- The import-side fcurve corresponding to an export-side channel. -/
def chToFC (ch : Channel) : FCurve :=
  FCurve.mk ch.data_path ch.array_index ch.points

/-- The key of an export-side channel. -/
def chKey (ch : Channel) : Key :=
  (ch.data_path, ch.array_index)

/-- Lookup of a channel of the export container by key. -/
def lookupCh (ea : ExpAction) (dp : String) (ai : Int) : Option Channel :=
  (channelsOf ea).find? (fun ch => decide (ch.data_path = dp ∧ ch.array_index = ai))

/-- Pure companion of `processRecord`: reads and coerces the same fields
in the same order, producing the key and the keyframe the record denotes
(or the first exception). -/
def applyList : List (Except PyError (Keyframe → Keyframe)) → Keyframe → Except PyError Keyframe
  | [], kf => .ok kf
  | .error e :: _, _ => .error e
  | .ok f :: rest, kf => applyList rest (f kf)

/-- Full parse of one record, mirroring the read/coercion order of
`insert_keyframes` for one record. -/
def parseRecord (r : RawRecord) : Except PyError (String × Int × Keyframe) :=
  match r.data_path with
  | none => .error (.keyError "data_path")
  | some dp =>
    match r.array_index with
    | none => .error (.keyError "array_index")
    | some ai =>
      match r.co with
      | none => .error (.keyError "co")
      | some co =>
        match r.type with
        | none => .error (.keyError "type")
        | some ty =>
          match coMk co with
          | .error e => .error e
          | .ok tv =>
            match applyList (attrSetters r) (Keyframe.fresh tv.1 tv.2 ty) with
            | .error e => .error e
            | .ok kf => .ok (dp, ai, kf)

/-- A record every one of whose reads and coercions succeeds. -/
def recordOk (r : RawRecord) : Bool :=
  match parseRecord r with
  | .ok _ => true
  | .error _ => false

/-- A record missing at least one field the importer reads. -/
def recordMissingField (r : RawRecord) : Bool :=
  r.data_path.isNone || r.array_index.isNone || r.co.isNone || r.type.isNone ||
  r.amplitude.isNone || r.back.isNone || r.easing.isNone ||
  r.handle_left.isNone || r.handle_left_type.isNone ||
  r.handle_right.isNone || r.handle_right_type.isNone ||
  r.interpolation.isNone || r.period.isNone

/-- The key of an fcurve. -/
def keyOf (fc : FCurve) : Key :=
  (fc.data_path, fc.array_index)

/-- The keys of a curve list, in order. -/
def keysOf (l : List FCurve) : List Key :=
  l.map keyOf

/-- The channel-key uniqueness invariant of the spec: no two fcurves of
one action share `(data_path, array_index)`. -/
def uniqueKeys (a : Action) : Prop :=
  (keysOf a.fcurves).Nodup

instance (a : Action) : Decidable (uniqueKeys a) := by
  unfold uniqueKeys keysOf keyOf
  infer_instance

/-- The times of a point list. -/
def timesOf (pts : List Keyframe) : List ℚ :=
  pts.map (fun p => p.co.1)

/-- Sorted insertion of a fully-built keyframe (the net effect of
`insert` plus the attribute assignments at a fresh time). -/
def sortedIns (kf : Keyframe) : List Keyframe → List Keyframe
  | [] => [kf]
  | p :: rest =>
    if kf.co.1 < p.co.1 then kf :: p :: rest
    else if kf.co.1 = p.co.1 then kf :: rest
    else p :: sortedIns kf rest

/-- The keyframes a parsed-record list carries for one channel key, in
document order. -/
def kfsFor (dp : String) (ai : Int) (xs : List (String × Int × Keyframe)) : List Keyframe :=
  (xs.filter (fun x => decide (x.1 = dp ∧ x.2.1 = ai))).map (fun x => x.2.2)

/-- One import-side operation, for the any-sequence-of-imports
invariant. -/
inductive ImportOp where
  | insert (doc : List RawRecord) (filt : Option (List Key)) (rc : Bool)
  | touch (dp : String) (ai : Int) (rp : Bool)

/-- Application of one import operation to an action. -/
def applyOp (a : Action) : ImportOp → Action
  | .insert doc filt rc => (insertKeyframes a doc filt rc).1
  | .touch dp ai rp => (touchFCurve a dp ai rp).1

/-- Application of a sequence of import operations. -/
def applyOps (a : Action) (ops : List ImportOp) : Action :=
  ops.foldl applyOp a

/-- A concrete keyframe, used by witnesses (integer-valued fields keep
kernel evaluation cheap). -/
def egKeyframe : Keyframe :=
  { co := (1, 0), amplitude := 0, back := 2, easing := "AUTO",
    handle_left := (0, 0), handle_left_type := "FREE",
    handle_right := (2, 0), handle_right_type := "FREE",
    interpolation := "BEZIER", period := 3, type := "KEYFRAME" }

/-- A second concrete keyframe at a later time. -/
def egKeyframe2 : Keyframe :=
  { egKeyframe with co := (2, 3), handle_left := (1, 3), handle_right := (3, 3) }

/-- The record the exporter emits for `egKeyframe`. -/
def egRecord : RawRecord :=
  keyframeToJson egKeyframe "location" 0 "Object Transforms"

/-- The record the exporter emits for `egKeyframe2`. -/
def egRecord2 : RawRecord :=
  keyframeToJson egKeyframe2 "location" 0 "Object Transforms"

/-- `egRecord` with its `period` stored as the JSON string `"0.1"`, as
a lenient producer may write it. -/
def egRecordPeriodStr : RawRecord :=
  { egRecord with period := some (.str "0.1") }

/-- A fresh empty action. -/
def emptyAction : Action :=
  { name := "Imported", fcurves := [] }

/-- `egRecord2` with its `amplitude` field missing (a malformed
record). -/
def egRecordNoAmp : RawRecord :=
  { egRecord2 with amplitude := none }

/-- A concrete sampled-form channel, used by witnesses. -/
def egChannelSampled : Channel :=
  { data_path := "location", array_index := 0, points := [egKeyframe], isSampled := true }

/-- A concrete object without animation data, used by witnesses. -/
def egObjNoAnim : Obj :=
  { animation_data := none }

/-- A concrete document, used by witnesses. -/
def egDoc : RawDoc :=
  { name := some "Test", keyframes := some [egRecord] }

/-- A concrete export container with one group and one keyframe-form
channel, used by witnesses. -/
def egExpAction : ExpAction :=
  { name := "Act", groups := [("G",
      [{ data_path := "location", array_index := 0,
         points := [egKeyframe, egKeyframe2], isSampled := false }])] }

/-- A concrete sequence of import operations, used by witnesses. -/
def egOps : List ImportOp :=
  [ImportOp.insert [egRecord, egRecord2] none true,
   ImportOp.touch "location" 0 true,
   ImportOp.insert [egRecord2] (some [(("location", 1) : Key)]) false]

end AnimIO

namespace AnimIO

theorem getField_error {α : Type} {o : Option α} {f : String} {e : PyError}
    (h : getField o f = .error e) : e = .keyError f := by
  cases o <;> simp [getField] at h
  exact h.symm

theorem pyFloat_error {j : JNum} {e : PyError} (h : pyFloat j = .error e) :
    isMDE e = true := by
  cases j with
  | int n => simp [pyFloat] at h
  | real q => simp [pyFloat] at h
  | str s =>
    simp only [pyFloat] at h
    cases hp : parseFloat s <;> rw [hp] at h
    · cases h; rfl
    · cases h

theorem assignFloat_error {j : JNum} {e : PyError} (h : assignFloat j = .error e) :
    isMDE e = true := by
  cases j <;> simp [assignFloat] at h
  cases h; rfl

theorem floatList_error {l : List JNum} {e : PyError} (h : floatList l = .error e) :
    isMDE e = true := by
  induction l with
  | nil => simp [floatList] at h
  | cons x rest ih =>
    unfold floatList at h
    cases hx : pyFloat x with
    | error e' => rw [hx] at h; cases h; exact pyFloat_error hx
    | ok q =>
      rw [hx] at h
      cases hr : floatList rest with
      | error e' => rw [hr] at h; cases h; exact ih hr
      | ok qs => rw [hr] at h; cases h

theorem toVec2_error {l : List ℚ} {e : PyError} (h : toVec2 l = .error e) :
    isMDE e = true := by
  unfold toVec2 at h
  split at h
  · cases h
  · cases h; rfl

theorem coMk_error {l : List JNum} {e : PyError} (h : coMk l = .error e) :
    isMDE e = true := by
  unfold coMk at h
  split at h
  case h_1 a b =>
    cases ha : assignFloat a with
    | error e' => rw [ha] at h; cases h; exact assignFloat_error ha
    | ok x =>
      rw [ha] at h
      cases hb : assignFloat b with
      | error e' => rw [hb] at h; cases h; exact assignFloat_error hb
      | ok y => rw [hb] at h; cases h
  case h_2 => cases h; rfl

theorem except_map_error {α β : Type} {f : α → β} {x : Except PyError α} {e : PyError}
    (h : x.map f = .error e) : x = .error e := by
  cases x <;> simp [Except.map] at h ⊢
  exact h

theorem except_bind_error {α β : Type} {x : Except PyError α} {g : α → Except PyError β}
    {e : PyError} (h : x.bind g = .error e) :
    x = .error e ∨ ∃ a, x = .ok a ∧ g a = .error e := by
  cases x with
  | error e' => simp [Except.bind] at h; simp [h]
  | ok a => simp [Except.bind] at h; exact Or.inr ⟨a, rfl, h⟩

theorem attrSetters_error {r : RawRecord} {u : Except PyError (Keyframe → Keyframe)}
    (hu : u ∈ attrSetters r) {e : PyError} (h : u = .error e) : isMDE e = true := by
  subst h
  simp only [attrSetters, List.mem_cons, List.not_mem_nil, or_false] at hu
  rcases hu with h|h|h|h|h|h|h|h|h
  · replace h := except_map_error h.symm
    rcases except_bind_error h with h' | ⟨a, -, h'⟩
    · rw [getField_error h']; rfl
    · exact pyFloat_error h'
  · replace h := except_map_error h.symm
    rcases except_bind_error h with h' | ⟨a, -, h'⟩
    · rw [getField_error h']; rfl
    · exact pyFloat_error h'
  · replace h := except_map_error h.symm
    rw [getField_error h]; rfl
  · replace h := except_map_error h.symm
    rcases except_bind_error h with h' | ⟨a, -, h'⟩
    · rcases except_bind_error h' with h'' | ⟨b, -, h''⟩
      · rw [getField_error h'']; rfl
      · exact floatList_error h''
    · exact toVec2_error h'
  · replace h := except_map_error h.symm
    rw [getField_error h]; rfl
  · replace h := except_map_error h.symm
    rcases except_bind_error h with h' | ⟨a, -, h'⟩
    · rcases except_bind_error h' with h'' | ⟨b, -, h''⟩
      · rw [getField_error h'']; rfl
      · exact floatList_error h''
    · exact toVec2_error h'
  · replace h := except_map_error h.symm
    rw [getField_error h]; rfl
  · replace h := except_map_error h.symm
    rw [getField_error h]; rfl
  · replace h := except_map_error h.symm
    rcases except_bind_error h with h' | ⟨a, -, h'⟩
    · rw [getField_error h']; rfl
    · exact assignFloat_error h'

theorem applyAttrs_error {L : List (Except PyError (Keyframe → Keyframe))}
    (hL : ∀ u ∈ L, ∀ e', u = .error e' → isMDE e' = true)
    {a : Action} {i : Nat} {t : ℚ} {rep : List Key} {a' : Action} {rep' : List Key}
    {e : PyError} (h : applyAttrs a i t rep L = (a', rep', some e)) : isMDE e = true := by
  induction L generalizing a with
  | nil => cases h
  | cons u rest ih =>
    cases u with
    | error e' =>
      simp only [applyAttrs] at h
      cases h
      exact hL _ (List.mem_cons_self _ _) _ rfl
    | ok f =>
      simp only [applyAttrs] at h
      exact ih (fun u hu => hL u (List.mem_cons_of_mem _ hu)) h

theorem processAfterTouch_error {a1 : Action} {i : Nat} {rep1 : List Key} {r : RawRecord}
    {a' : Action} {rep' : List Key} {e : PyError}
    (h : processAfterTouch a1 i rep1 r = (a', rep', some e)) : isMDE e = true := by
  unfold processAfterTouch at h
  split at h
  · cases h; rfl
  · split at h
    · cases h; rfl
    · split at h
      · next e1 heq => cases h; exact coMk_error heq
      · exact applyAttrs_error (fun u hu e' he => attrSetters_error hu he) h

theorem processRecord_error {filt : Option (List Key)} {rc : Bool} {a : Action}
    {rep : List Key} {r : RawRecord} {a' : Action} {rep' : List Key} {e : PyError}
    (h : processRecord filt rc a rep r = (a', rep', some e)) : isMDE e = true := by
  unfold processRecord at h
  split at h
  · cases h; rfl
  · split at h
    · cases h; rfl
    · split at h
      · cases h
      · exact processAfterTouch_error h

theorem insertLoop_error {doc : List RawRecord} {filt : Option (List Key)} {rc : Bool}
    {a : Action} {rep : List Key} {a' : Action} {rep' : List Key} {e : PyError}
    (h : insertLoop filt rc a rep doc = (a', rep', some e)) : isMDE e = true := by
  induction doc generalizing a rep with
  | nil => cases h
  | cons r rest ih =>
    unfold insertLoop at h
    split at h
    · exact ih h
    · next a1 rep1 e1 heq => cases h; exact processRecord_error heq

theorem insertKeyframes_error {a : Action} {doc : List RawRecord} {filt : Option (List Key)}
    {rc : Bool} {e : PyError} (h : (insertKeyframes a doc filt rc).2 = some e) :
    isMDE e = true := by
  unfold insertKeyframes at h
  split at h
  next a1 rep1 e1 heq =>
  subst h
  exact insertLoop_error heq

theorem isMDE_ne_noActiveAction {e : PyError} (h : isMDE e = true) :
    e ≠ PyError.noActiveAction := by
  cases e <;> simp [isMDE] at h ⊢

theorem processRecord_empty_filter (rc : Bool) (a : Action) (rep : List Key) (r : RawRecord) :
    processRecord (some []) rc a rep r = processRecord none rc a rep r := rfl

theorem insertLoop_empty_filter (rc : Bool) (doc : List RawRecord) (a : Action)
    (rep : List Key) :
    insertLoop (some []) rc a rep doc = insertLoop none rc a rep doc := by
  induction doc generalizing a rep with
  | nil => rfl
  | cons r rest ih =>
    unfold insertLoop
    rw [processRecord_empty_filter]
    cases hp : processRecord none rc a rep r with
    | mk a1 rest1 =>
      cases rest1 with
      | mk rep1 err1 =>
        cases err1 with
        | none => exact ih a1 rep1
        | some e1 => rfl

/-- C10: calling `insert_keyframes` with an empty filter set behaves
identically to calling it with no filter at all: the Python truthiness
test `if filter and ...` treats the empty set like `None`, so every
record is imported and the resulting container states agree. -/
theorem c10_empty_filter_is_no_filter (a : Action) (doc : List RawRecord) (rc : Bool) :
    insertKeyframes a doc (some []) rc = insertKeyframes a doc none rc := by
  unfold insertKeyframes
  rw [insertLoop_empty_filter]

/-- C3 counterexample: with the empty filter set supplied, a record
whose key `("location", 0)` is not in the filter is nevertheless
imported — a channel outside the filter set is created, so the claim's
empty-set case is false. -/
theorem c3_empty_filter_counterexample :
    ¬ (("location", (0 : Int)) ∈ ([] : List Key)) ∧
    lookupFC (insertKeyframes emptyAction [egRecord] (some []) true).1 "location" 0 ≠ none := by
  constructor
  · simp
  · decide

/-- C5 evaluated at the failing input: the importer assigns
`keyframe['period']` without `float()` coercion, so a record whose
`period` is stored as the JSON string `"0.1"` raises `TypeError`
instead of being coerced — although `float("0.1")` parses (as the
coerced fields demonstrate: the same string stored in `back` is
accepted and coerced). -/
theorem c5_period_string_raises :
    (insertKeyframes emptyAction [egRecordPeriodStr] none true).2 = some PyError.typeError ∧
    (parseFloat "0.1").isSome = true ∧
    (insertKeyframes emptyAction [{ egRecord with back := some (.str "0.1") }] none true).2
      = none := by
  refine ⟨by decide, by decide, by decide⟩

/-- C6: exporting a channel stored in sampled form emits the same
keyframe records as if it were stored in keyframe form, and leaves the
channel in its original sampled form afterwards (the conversion
round-trip of the exporter's per-channel loop body). -/
theorem c6_sampled_export_transparency (g : String) (ch : Channel)
    (h : ch.isSampled = true) :
    (exportChannel g ch).1 = (exportChannel g { ch with isSampled := false }).1 ∧
    (exportChannel g ch).2 = ch := by
  obtain ⟨dp, ai, pts, s⟩ := ch
  cases h
  constructor
  · simp only [exportChannel, Channel.keyframePoints, Channel.convertToKeyframes,
      Channel.convertToSamples]
    cases pts <;> simp
  · simp [exportChannel, Channel.keyframePoints, Channel.convertToKeyframes,
      Channel.convertToSamples]

/-- C6 witness: a concrete sampled channel. -/
theorem c6_sampled_export_transparency_witness :
    (exportChannel "Object Transforms" egChannelSampled).1 =
      (exportChannel "Object Transforms" { egChannelSampled with isSampled := false }).1 ∧
    (exportChannel "Object Transforms" egChannelSampled).2 = egChannelSampled :=
  c6_sampled_export_transparency "Object Transforms" egChannelSampled rfl

/-- C7: the replacer/merger execute fails with the no-active-action
error (the source's `ValueError` raise, the spec's
`NoActiveActionError`) exactly when the target object has no animation
data or no active action — given that the document parsed — and in that
case the call is fatal and the target is returned unmutated. -/
theorem resolver_with_action_no_nae (d : RawDoc) (ad : AnimData) (act : Action) (obj : Obj)
    (hobj : obj.animation_data = some ad) (had : ad.action = some act) (rc : Bool) :
    (resolverExecute (Except.ok d) obj rc).2 ≠ some PyError.noActiveAction := by
  cases hkf : d.keyframes with
  | none => simp [resolverExecute, hobj, had, hkf]
  | some kfs =>
    simp only [resolverExecute, hobj, had, hkf]
    intro h
    have hm := insertKeyframes_error
      (show (insertKeyframes act kfs none rc).2 = some PyError.noActiveAction by
        simpa using h)
    simp [isMDE] at hm

theorem c7_no_active_action (d : RawDoc) (obj : Obj) (rc : Bool) :
    ((resolverExecute (Except.ok d) obj rc).2 = some PyError.noActiveAction ↔
      (obj.animation_data = none ∨ ∃ ad, obj.animation_data = some ad ∧ ad.action = none)) ∧
    ((obj.animation_data = none ∨ ∃ ad, obj.animation_data = some ad ∧ ad.action = none) →
      resolverExecute (Except.ok d) obj rc = (obj, some PyError.noActiveAction)) := by
  have side : (obj.animation_data = none ∨
      ∃ ad, obj.animation_data = some ad ∧ ad.action = none) →
      resolverExecute (Except.ok d) obj rc = (obj, some PyError.noActiveAction) := by
    rintro (h | ⟨ad, had1, had2⟩)
    · simp [resolverExecute, h]
    · simp [resolverExecute, had1, had2]
  refine ⟨⟨fun h => ?_, fun h => by rw [side h]⟩, side⟩
  cases hobj : obj.animation_data with
  | none => exact Or.inl rfl
  | some ad =>
    cases had : ad.action with
    | none => exact Or.inr ⟨ad, rfl, had⟩
    | some act => exact absurd h (resolver_with_action_no_nae d ad act obj hobj had rc)

/-- C7 witness: a concrete object without animation data is rejected
unmutated. -/
theorem c7_no_active_action_witness :
    resolverExecute (Except.ok egDoc) egObjNoAnim true =
      (egObjNoAnim, some PyError.noActiveAction) :=
  (c7_no_active_action egDoc egObjNoAnim true).2 (Or.inl rfl)

theorem keysOf_append (l1 l2 : List FCurve) : keysOf (l1 ++ l2) = keysOf l1 ++ keysOf l2 :=
  List.map_append _ _ _

theorem keyOf_ne_of_not_match {fc : FCurve} {dp : String} {ai : Int}
    (h : ¬(fc.data_path = dp ∧ fc.array_index = ai)) : ((dp, ai) : Key) ≠ keyOf fc := by
  intro hc
  rw [keyOf, Prod.mk.injEq] at hc
  exact h ⟨hc.1.symm, hc.2.symm⟩

theorem findKey_eq_none_of_not_mem {l : List FCurve} {dp : String} {ai : Int}
    (h : ((dp, ai) : Key) ∉ keysOf l) : findKey l dp ai = none := by
  induction l with
  | nil => rfl
  | cons fc rest ih =>
    have hcons : keysOf (fc :: rest) = keyOf fc :: keysOf rest := rfl
    rw [hcons, List.mem_cons, not_or] at h
    have hm : ¬(fc.data_path = dp ∧ fc.array_index = ai) := by
      intro hm
      exact h.1 (by rw [keyOf, hm.1, hm.2])
    rw [findKey, if_neg hm, ih h.2]
    rfl

theorem not_mem_of_findKey_none {l : List FCurve} {dp : String} {ai : Int}
    (h : findKey l dp ai = none) : ((dp, ai) : Key) ∉ keysOf l := by
  induction l with
  | nil => simp [keysOf]
  | cons fc rest ih =>
    have hcons : keysOf (fc :: rest) = keyOf fc :: keysOf rest := rfl
    by_cases hm : fc.data_path = dp ∧ fc.array_index = ai
    · rw [findKey, if_pos hm] at h; cases h
    · rw [findKey, if_neg hm] at h
      rw [hcons, List.mem_cons, not_or]
      cases hf : findKey rest dp ai with
      | none => exact ⟨keyOf_ne_of_not_match hm, ih hf⟩
      | some j => rw [hf] at h; cases h

theorem findKey_some_get (l : List FCurve) (dp : String) (ai : Int) (i : Nat)
    (h : findKey l dp ai = some i) :
    ∃ fc, l.get? i = some fc ∧ fc.data_path = dp ∧ fc.array_index = ai := by
  induction l generalizing i with
  | nil => cases h
  | cons fc rest ih =>
    by_cases hm : fc.data_path = dp ∧ fc.array_index = ai
    · rw [findKey, if_pos hm] at h
      cases h
      exact ⟨fc, rfl, hm⟩
    · rw [findKey, if_neg hm] at h
      cases hf : findKey rest dp ai with
      | none => rw [hf] at h; cases h
      | some j =>
        rw [hf] at h
        cases h
        obtain ⟨fc', hget, hdp, hai⟩ := ih j hf
        exact ⟨fc', hget, hdp, hai⟩

theorem findKey_append_of_none (l : List FCurve) (x : FCurve) (dp : String) (ai : Int)
    (h : findKey l dp ai = none) (hx : x.data_path = dp ∧ x.array_index = ai) :
    findKey (l ++ [x]) dp ai = some l.length := by
  induction l with
  | nil => simp [findKey, hx]
  | cons fc rest ih =>
    by_cases hm : fc.data_path = dp ∧ fc.array_index = ai
    · rw [findKey, if_pos hm] at h; cases h
    · rw [findKey, if_neg hm] at h
      rw [List.cons_append, findKey, if_neg hm]
      cases hf : findKey rest dp ai with
      | none => rw [ih hf]; simp [List.length_cons]
      | some j => rw [hf] at h; cases h

theorem findKey_append_of_ne (l : List FCurve) (x : FCurve) (dp : String) (ai : Int)
    (hx : ¬(x.data_path = dp ∧ x.array_index = ai)) :
    findKey (l ++ [x]) dp ai = findKey l dp ai := by
  induction l with
  | nil => simp [findKey, if_neg hx]
  | cons fc rest ih =>
    by_cases hm : fc.data_path = dp ∧ fc.array_index = ai
    · rw [List.cons_append, findKey, if_pos hm, findKey, if_pos hm]
    · rw [List.cons_append, findKey, if_neg hm, findKey, if_neg hm, ih]

theorem modifyIdx_get_self {α : Type} (f : α → α) (i : Nat) (l : List α) :
    (modifyIdx f i l).get? i = (l.get? i).map f := by
  induction l generalizing i with
  | nil => cases i <;> simp [modifyIdx]
  | cons x rest ih =>
    cases i with
    | zero => simp [modifyIdx]
    | succ n => simpa [modifyIdx] using ih n

theorem modifyIdx_get_ne {α : Type} (f : α → α) (i j : Nat) (l : List α) (h : j ≠ i) :
    (modifyIdx f i l).get? j = l.get? j := by
  induction l generalizing i j with
  | nil => cases i <;> simp [modifyIdx]
  | cons x rest ih =>
    cases i with
    | zero =>
      cases j with
      | zero => exact absurd rfl h
      | succ m => simp [modifyIdx]
    | succ n =>
      cases j with
      | zero => simp [modifyIdx]
      | succ m => simpa [modifyIdx] using ih n m (fun hc => h (by rw [hc]))

theorem map_modifyIdx {α β : Type} (g : α → β) (f : α → α) (i : Nat) (l : List α)
    (hf : ∀ x, g (f x) = g x) : (modifyIdx f i l).map g = l.map g := by
  induction l generalizing i with
  | nil => cases i <;> simp [modifyIdx]
  | cons x rest ih =>
    cases i with
    | zero => simp [modifyIdx, hf]
    | succ n => simp [modifyIdx, ih n]

theorem map_removeIdx {α β : Type} (g : α → β) (i : Nat) (l : List α) :
    (removeIdx l i).map g = removeIdx (l.map g) i := by
  induction l generalizing i with
  | nil => cases i <;> simp [removeIdx]
  | cons x rest ih =>
    cases i with
    | zero => simp [removeIdx]
    | succ n => simp [removeIdx, ih n]

theorem removeIdx_sublist {α : Type} (l : List α) (i : Nat) :
    List.Sublist (removeIdx l i) l := by
  induction l generalizing i with
  | nil => cases i <;> simp [removeIdx]
  | cons x rest ih =>
    cases i with
    | zero => simp [removeIdx]
    | succ n => exact List.Sublist.cons₂ x (ih n)

theorem not_mem_removeIdx {α : Type} [DecidableEq α] (l : List α) (i : Nat) (k : α)
    (hnd : l.Nodup) (hget : l.get? i = some k) : k ∉ removeIdx l i := by
  induction l generalizing i with
  | nil => cases i <;> cases hget
  | cons x rest ih =>
    cases i with
    | zero =>
      cases hget
      simpa [removeIdx] using (List.nodup_cons.mp hnd).1
    | succ n =>
      simp only [List.get?_cons_succ] at hget
      simp only [removeIdx, List.mem_cons]
      rintro (hk | hk)
      · subst hk
        exact (List.nodup_cons.mp hnd).1 (List.get?_mem hget)
      · exact ih n (List.nodup_cons.mp hnd).2 hget hk

theorem keysOf_length (l : List FCurve) : (keysOf l).length = l.length :=
  List.length_map _ _

theorem keysOf_get (l : List FCurve) (i : Nat) (fc : FCurve) (h : l.get? i = some fc) :
    (keysOf l).get? i = some (keyOf fc) := by
  unfold keysOf
  rw [List.get?_map, h]
  rfl

theorem uniqueKeys_of_keysOf_eq {a a' : Action}
    (h : keysOf a'.fcurves = keysOf a.fcurves) (hu : uniqueKeys a) : uniqueKeys a' := by
  unfold uniqueKeys at *
  rw [h]
  exact hu

theorem uniqueKeys_touch (a : Action) (dp : String) (ai : Int) (rp : Bool)
    (h : uniqueKeys a) : uniqueKeys (touchFCurve a dp ai rp).1 := by
  unfold touchFCurve
  cases hf : findKey a.fcurves dp ai with
  | none =>
    unfold uniqueKeys at *
    simp only [keysOf_append]
    rw [List.nodup_append]
    refine ⟨h, List.nodup_singleton _, ?_⟩
    intro k hk hk'
    have hkey : k = ((dp, ai) : Key) := by
      simpa [keysOf, keyOf] using hk'
    subst hkey
    exact not_mem_of_findKey_none hf hk
  | some i =>
    cases rp with
    | false => exact h
    | true =>
      simp only [if_true]
      unfold uniqueKeys at *
      simp only [keysOf_append]
      rw [List.nodup_append]
      have hrm : keysOf (removeIdx a.fcurves i) = removeIdx (keysOf a.fcurves) i :=
        map_removeIdx keyOf i a.fcurves
      refine ⟨?_, List.nodup_singleton _, ?_⟩
      · rw [hrm]
        exact h.sublist (removeIdx_sublist _ _)
      · intro k hk hk'
        have hkey : k = ((dp, ai) : Key) := by
          simpa [keysOf, keyOf] using hk'
        subst hkey
        obtain ⟨fc, hget, hdp, hai⟩ := findKey_some_get a.fcurves dp ai i hf
        have hkget : (keysOf a.fcurves).get? i = some ((dp, ai) : Key) := by
          have := keysOf_get a.fcurves i fc hget
          rwa [keyOf, hdp, hai] at this
        rw [hrm] at hk
        exact not_mem_removeIdx (keysOf a.fcurves) i _ h hkget hk

theorem keysOf_setCurve (a : Action) (i : Nat) (f : FCurve → FCurve)
    (hf : ∀ fc, keyOf (f fc) = keyOf fc) :
    keysOf (setCurve a i f).fcurves = keysOf a.fcurves :=
  map_modifyIdx keyOf f i a.fcurves hf

theorem keysOf_applyAttrs (L : List (Except PyError (Keyframe → Keyframe)))
    (a : Action) (i : Nat) (t : ℚ) (rep : List Key) :
    keysOf ((applyAttrs a i t rep L).1).fcurves = keysOf a.fcurves := by
  induction L generalizing a with
  | nil => rfl
  | cons u rest ih =>
    cases u with
    | error e => rfl
    | ok f =>
      rw [applyAttrs, ih]
      exact keysOf_setCurve a i _ (fun fc => rfl)

theorem uniqueKeys_processAfterTouch (a1 : Action) (i : Nat) (rep1 : List Key)
    (r : RawRecord) (h : uniqueKeys a1) :
    uniqueKeys (processAfterTouch a1 i rep1 r).1 := by
  unfold processAfterTouch
  split
  · exact h
  · split
    · exact h
    · split
      · exact h
      · refine uniqueKeys_of_keysOf_eq ?_ h
        rw [keysOf_applyAttrs]
        exact keysOf_setCurve _ i _ (fun fc => rfl)

theorem uniqueKeys_processRecord (filt : Option (List Key)) (rc : Bool) (a : Action)
    (rep : List Key) (r : RawRecord) (h : uniqueKeys a) :
    uniqueKeys (processRecord filt rc a rep r).1 := by
  unfold processRecord
  split
  · exact h
  · split
    · exact h
    · split
      · exact h
      · exact uniqueKeys_processAfterTouch _ _ _ _ (uniqueKeys_touch a _ _ _ h)

theorem uniqueKeys_insertLoop (doc : List RawRecord) (filt : Option (List Key)) (rc : Bool)
    (a : Action) (rep : List Key) (h : uniqueKeys a) :
    uniqueKeys (insertLoop filt rc a rep doc).1 := by
  induction doc generalizing a rep with
  | nil => exact h
  | cons r rest ih =>
    unfold insertLoop
    cases hp : processRecord filt rc a rep r with
    | mk a1 rest1 =>
      have h1 : uniqueKeys a1 := by
        have := uniqueKeys_processRecord filt rc a rep r h
        rwa [hp] at this
      cases rest1 with
      | mk rep1 err1 =>
        cases err1 with
        | none => exact ih a1 rep1 h1
        | some e1 => exact h1

theorem uniqueKeys_insertKeyframes (a : Action) (doc : List RawRecord)
    (filt : Option (List Key)) (rc : Bool) (h : uniqueKeys a) :
    uniqueKeys (insertKeyframes a doc filt rc).1 := by
  unfold insertKeyframes
  split
  next a1 rep1 e1 heq =>
  have := uniqueKeys_insertLoop doc filt rc a [] h
  rwa [heq] at this

/-- C4: starting from a container with at most one channel per
`(data_path, array_index)` key, any sequence of import operations
(`insert_keyframes` or `touch_fcurve` calls, with any replace flag,
filter and document) leaves at most one channel per key: `touch_fcurve`
either returns the existing channel, or removes it before creating the
replacement, and record processing never changes channel keys. -/
theorem c4_key_uniqueness_invariant (a : Action) (ops : List ImportOp)
    (h : uniqueKeys a) : uniqueKeys (applyOps a ops) := by
  induction ops generalizing a with
  | nil => exact h
  | cons op rest ih =>
    unfold applyOps at *
    rw [List.foldl_cons]
    refine ih _ ?_
    cases op with
    | insert doc filt rc => exact uniqueKeys_insertKeyframes a doc filt rc h
    | touch dp ai rp => exact uniqueKeys_touch a dp ai rp h

/-- C4 witness: a concrete operation sequence on a concrete container. -/
theorem c4_key_uniqueness_invariant_witness :
    uniqueKeys emptyAction ∧ uniqueKeys (applyOps emptyAction egOps) :=
  ⟨by decide, c4_key_uniqueness_invariant emptyAction egOps (by decide)⟩

theorem lookupL_eq_find (l : List FCurve) (dp : String) (ai : Int) :
    (match findKey l dp ai with
      | some i => l.get? i
      | none => none) =
      l.find? (fun fc => decide (fc.data_path = dp ∧ fc.array_index = ai)) := by
  induction l with
  | nil => rfl
  | cons fc rest ih =>
    by_cases hm : fc.data_path = dp ∧ fc.array_index = ai
    · rw [findKey, if_pos hm, List.find?_cons_of_pos _ (by simpa using hm)]
      rfl
    · rw [findKey, if_neg hm, List.find?_cons_of_neg _ (by simpa using hm), ← ih]
      cases findKey rest dp ai <;> rfl

theorem lookupFC_eq_find (a : Action) (dp : String) (ai : Int) :
    lookupFC a dp ai =
      a.fcurves.find? (fun fc => decide (fc.data_path = dp ∧ fc.array_index = ai)) := by
  unfold lookupFC
  exact lookupL_eq_find a.fcurves dp ai

theorem find?_singleton_neg {α : Type} (p : α → Bool) (x : α) (h : ¬ p x = true) :
    [x].find? p = none := by
  rw [List.find?_cons_of_neg _ h]
  rfl

theorem find?_append_singleton_neg {α : Type} (p : α → Bool) (l : List α) (x : α)
    (h : ¬ p x = true) : (l ++ [x]).find? p = l.find? p := by
  rw [List.find?_append, find?_singleton_neg p x h]
  cases l.find? p <;> rfl

theorem find?_removeIdx_neg {α : Type} (p : α → Bool) (l : List α) (i : Nat)
    (h : ∀ x, l.get? i = some x → ¬ p x = true) :
    (removeIdx l i).find? p = l.find? p := by
  induction l generalizing i with
  | nil => cases i <;> rfl
  | cons x rest ih =>
    cases i with
    | zero =>
      rw [removeIdx, List.find?_cons_of_neg _ (h x rfl)]
    | succ n =>
      rw [removeIdx]
      by_cases hx : p x = true
      · rw [List.find?_cons_of_pos _ hx, List.find?_cons_of_pos _ hx]
      · rw [List.find?_cons_of_neg _ hx, List.find?_cons_of_neg _ hx]
        exact ih n (fun y hy => h y hy)

theorem find?_modifyIdx_neg {α : Type} (p : α → Bool) (f : α → α) (l : List α) (i : Nat)
    (h : ∀ x, l.get? i = some x → ¬ p x = true) (hf : ∀ x, p (f x) = p x) :
    (modifyIdx f i l).find? p = l.find? p := by
  induction l generalizing i with
  | nil => cases i <;> rfl
  | cons x rest ih =>
    cases i with
    | zero =>
      rw [modifyIdx, List.find?_cons_of_neg _ (by rw [hf]; exact h x rfl),
        List.find?_cons_of_neg _ (h x rfl)]
    | succ n =>
      rw [modifyIdx]
      by_cases hx : p x = true
      · rw [List.find?_cons_of_pos _ hx, List.find?_cons_of_pos _ hx]
      · rw [List.find?_cons_of_neg _ hx, List.find?_cons_of_neg _ hx]
        exact ih n (fun y hy => h y hy)

theorem matchKey_of_ne {fc : FCurve} {dp dpk : String} {ai aik : Int}
    (hfc : fc.data_path = dp ∧ fc.array_index = ai) (hne : ((dp, ai) : Key) ≠ (dpk, aik)) :
    ¬ (decide (fc.data_path = dpk ∧ fc.array_index = aik)) = true := by
  simp only [decide_eq_true_eq]
  intro hc
  exact hne (by rw [← hfc.1, ← hfc.2, ← hc.1, ← hc.2])

theorem lookupFC_touch_other (a : Action) (dp : String) (ai : Int) (rp : Bool)
    (dpk : String) (aik : Int) (hne : ((dp, ai) : Key) ≠ (dpk, aik)) :
    lookupFC (touchFCurve a dp ai rp).1 dpk aik = lookupFC a dpk aik := by
  rw [lookupFC_eq_find, lookupFC_eq_find]
  unfold touchFCurve
  cases hf : findKey a.fcurves dp ai with
  | none =>
    exact find?_append_singleton_neg _ _ _ (matchKey_of_ne ⟨rfl, rfl⟩ hne)
  | some i =>
    cases rp with
    | false => rfl
    | true =>
      simp only [if_true]
      obtain ⟨fc, hget, hdp, hai⟩ := findKey_some_get a.fcurves dp ai i hf
      refine Eq.trans
        (find?_append_singleton_neg _ _
          ({ data_path := dp, array_index := ai, points := [] } : FCurve)
          (matchKey_of_ne ⟨rfl, rfl⟩ hne)) ?_
      refine find?_removeIdx_neg _ _ i ?_
      intro x hx
      rw [hget] at hx
      cases hx
      exact matchKey_of_ne ⟨hdp, hai⟩ hne

theorem touch_get_self (a : Action) (dp : String) (ai : Int) (rp : Bool) :
    ∃ fc, ((touchFCurve a dp ai rp).1).fcurves.get? (touchFCurve a dp ai rp).2 = some fc ∧
      fc.data_path = dp ∧ fc.array_index = ai := by
  unfold touchFCurve
  cases hf : findKey a.fcurves dp ai with
  | none =>
    exact ⟨_, List.get?_concat_length _ _, rfl, rfl⟩
  | some i =>
    cases rp with
    | false =>
      obtain ⟨fc, hget, hdp, hai⟩ := findKey_some_get a.fcurves dp ai i hf
      exact ⟨fc, hget, hdp, hai⟩
    | true =>
      simp only [if_true]
      exact ⟨_, List.get?_concat_length _ _, rfl, rfl⟩

theorem lookupFC_setCurve_other (a : Action) (i : Nat) (g : List Keyframe → List Keyframe)
    (dpk : String) (aik : Int)
    (h : ∀ fc, a.fcurves.get? i = some fc → ¬ (decide (fc.data_path = dpk ∧ fc.array_index = aik)) = true) :
    lookupFC (setCurve a i (fun fc => { fc with points := g fc.points })) dpk aik =
      lookupFC a dpk aik := by
  rw [lookupFC_eq_find, lookupFC_eq_find]
  exact find?_modifyIdx_neg _ _ _ _ h (fun x => rfl)

theorem setCurve_key_stable (a : Action) (i : Nat) (g : List Keyframe → List Keyframe)
    (dp : String) (ai : Int)
    (hkey : ∀ fc, a.fcurves.get? i = some fc → fc.data_path = dp ∧ fc.array_index = ai) :
    ∀ fc, (setCurve a i (fun fc => { fc with points := g fc.points })).fcurves.get? i = some fc →
      fc.data_path = dp ∧ fc.array_index = ai := by
  intro fc hfc
  simp only [setCurve] at hfc
  rw [modifyIdx_get_self] at hfc
  cases hg : a.fcurves.get? i with
  | none => rw [hg] at hfc; cases hfc
  | some fc0 =>
    rw [hg] at hfc
    cases hfc
    exact hkey fc0 hg

theorem lookupFC_applyAttrs_other (L : List (Except PyError (Keyframe → Keyframe)))
    (a : Action) (i : Nat) (t : ℚ) (rep : List Key) (dp : String) (ai : Int)
    (dpk : String) (aik : Int) (hne : ((dp, ai) : Key) ≠ (dpk, aik))
    (hkey : ∀ fc, a.fcurves.get? i = some fc → fc.data_path = dp ∧ fc.array_index = ai) :
    lookupFC ((applyAttrs a i t rep L).1) dpk aik = lookupFC a dpk aik := by
  induction L generalizing a with
  | nil => rfl
  | cons u rest ih =>
    cases u with
    | error e => rfl
    | ok f =>
      rw [applyAttrs]
      rw [ih _ (setCurve_key_stable a i _ dp ai hkey)]
      exact lookupFC_setCurve_other a i _ dpk aik
        (fun fc hfc => matchKey_of_ne (hkey fc hfc) hne)

theorem lookupFC_processAfterTouch_other (a1 : Action) (i : Nat) (rep1 : List Key)
    (r : RawRecord) (dp : String) (ai : Int) (dpk : String) (aik : Int)
    (hne : ((dp, ai) : Key) ≠ (dpk, aik))
    (hkey : ∀ fc, a1.fcurves.get? i = some fc → fc.data_path = dp ∧ fc.array_index = ai) :
    lookupFC ((processAfterTouch a1 i rep1 r).1) dpk aik = lookupFC a1 dpk aik := by
  unfold processAfterTouch
  split
  · rfl
  · split
    · rfl
    · split
      · rfl
      · rw [lookupFC_applyAttrs_other _ _ i _ _ dp ai dpk aik hne
          (setCurve_key_stable a1 i _ dp ai hkey)]
        exact lookupFC_setCurve_other a1 i _ dpk aik
          (fun fc hfc => matchKey_of_ne (hkey fc hfc) hne)

theorem lookupFC_processRecord_other (filt : Option (List Key)) (rc : Bool) (a : Action)
    (rep : List Key) (r : RawRecord) (dpk : String) (aik : Int)
    (hne : recKeyOf r ≠ some ((dpk, aik) : Key)) :
    lookupFC ((processRecord filt rc a rep r).1) dpk aik = lookupFC a dpk aik := by
  unfold processRecord
  split
  · rfl
  · next dp hdp =>
    split
    · rfl
    · next ai hai =>
      have hrk : recKeyOf r = some ((dp, ai) : Key) := by
        simp [recKeyOf, hdp, hai]
      have hne' : ((dp, ai) : Key) ≠ (dpk, aik) := by
        intro hc
        exact hne (by rw [hrk, hc])
      split
      · rfl
      · rw [lookupFC_processAfterTouch_other _ _ _ _ dp ai dpk aik hne' ?_,
          lookupFC_touch_other a dp ai _ dpk aik hne']
        intro fc hfc
        obtain ⟨fc0, hg, hdp0, hai0⟩ := touch_get_self a dp ai (rc && !(rep.contains (dp, ai)))
        rw [hg] at hfc
        cases hfc
        exact ⟨hdp0, hai0⟩

theorem skipsRec_inv {filt : Option (List Key)} {r : RawRecord}
    (hs : skipsRec filt r = true) :
    ∃ dp ai, r.data_path = some dp ∧ r.array_index = some ai ∧
      skips filt ((dp, ai) : Key) = true := by
  unfold skipsRec recKeyOf at hs
  revert hs
  cases hdp : r.data_path <;> cases hai : r.array_index <;> intro hs
  · cases hs
  · cases hs
  · cases hs
  · exact ⟨_, _, rfl, rfl, hs⟩

theorem processRecord_skipped {filt : Option (List Key)} {r : RawRecord}
    (hs : skipsRec filt r = true) (rc : Bool) (a : Action) (rep : List Key) :
    processRecord filt rc a rep r = (a, rep, none) := by
  obtain ⟨dp, ai, hdp, hai, hsk⟩ := skipsRec_inv hs
  unfold processRecord
  simp only [hdp, hai, hsk, if_true]

theorem skips_of_not_mem {F : List Key} {k : Key} (hF : F ≠ []) (hk : k ∉ F) :
    skips (some F) k = true := by
  have h1 : F.isEmpty = false := by simpa using hF
  have h2 : F.contains k = false := by simpa using hk
  show (!F.isEmpty && !F.contains k) = true
  rw [h1, h2]
  rfl

theorem skipsRec_of_key {F : List Key} {r : RawRecord} {k : Key}
    (hr : recKeyOf r = some k) (hF : F ≠ []) (hk : k ∉ F) :
    skipsRec (some F) r = true := by
  unfold skipsRec
  rw [hr]
  exact skips_of_not_mem hF hk

theorem lookupFC_processRecord_filtered (F : List Key) (hF : F ≠ []) (dpk : String)
    (aik : Int) (hk : ((dpk, aik) : Key) ∉ F) (rc : Bool) (a : Action) (rep : List Key)
    (r : RawRecord) :
    lookupFC ((processRecord (some F) rc a rep r).1) dpk aik = lookupFC a dpk aik := by
  by_cases hr : recKeyOf r = some ((dpk, aik) : Key)
  · rw [processRecord_skipped (skipsRec_of_key hr hF hk) rc a rep]
  · exact lookupFC_processRecord_other (some F) rc a rep r dpk aik hr

theorem lookupFC_insertLoop_filtered (F : List Key) (hF : F ≠ []) (dpk : String)
    (aik : Int) (hk : ((dpk, aik) : Key) ∉ F) (rc : Bool) (doc : List RawRecord)
    (a : Action) (rep : List Key) :
    lookupFC ((insertLoop (some F) rc a rep doc).1) dpk aik = lookupFC a dpk aik := by
  induction doc generalizing a rep with
  | nil => rfl
  | cons r rest ih =>
    unfold insertLoop
    split
    · next a1 rep1 heq =>
      have hstep := lookupFC_processRecord_filtered F hF dpk aik hk rc a rep r
      rw [heq] at hstep
      rw [ih a1 rep1]
      exact hstep
    · next a1 rep1 e1 heq =>
      have hstep := lookupFC_processRecord_filtered F hF dpk aik hk rc a rep r
      rw [heq] at hstep
      exact hstep

theorem insertLoop_drop_skipped (filt : Option (List Key)) (rc : Bool)
    (doc : List RawRecord) (a : Action) (rep : List Key) :
    insertLoop filt rc a rep doc =
      insertLoop filt rc a rep (doc.filter (fun r => !skipsRec filt r)) := by
  induction doc generalizing a rep with
  | nil => rfl
  | cons r rest ih =>
    by_cases hs : skipsRec filt r = true
    · rw [List.filter_cons_of_neg (by simp [hs])]
      have hL : insertLoop filt rc a rep (r :: rest) = insertLoop filt rc a rep rest := by
        conv_lhs => rw [insertLoop]
        rw [processRecord_skipped hs]
      rw [hL]
      exact ih a rep
    · rw [List.filter_cons_of_pos (by simp [hs])]
      unfold insertLoop
      cases hp : processRecord filt rc a rep r with
      | mk a1 rest1 =>
        cases rest1 with
        | mk rep1 err1 =>
          cases err1 with
          | none => exact ih a1 rep1
          | some e1 => rfl

/-- C3 (amended): for every supplied nonempty filter set `F`,
`insert_keyframes` skips every record whose key is not in `F`: the
channel of any key outside `F` is neither created nor modified,
whatever the document contains, and skipped records are complete
no-ops — the run is identical to the run on the document with the
skipped records removed, so they touch neither channels nor the
replaced-set tracking. -/
theorem c3_filter_exclusivity (a : Action) (doc : List RawRecord) (rc : Bool)
    (F : List Key) (hF : F ≠ []) (dpk : String) (aik : Int)
    (hk : ((dpk, aik) : Key) ∉ F) :
    lookupFC (insertKeyframes a doc (some F) rc).1 dpk aik = lookupFC a dpk aik ∧
    (∀ rep, insertLoop (some F) rc a rep doc =
      insertLoop (some F) rc a rep (doc.filter (fun r => !skipsRec (some F) r))) := by
  constructor
  · unfold insertKeyframes
    split
    next a1 rep1 e1 heq =>
    have := lookupFC_insertLoop_filtered F hF dpk aik hk rc doc a []
    rwa [heq] at this
  · intro rep
    exact insertLoop_drop_skipped (some F) rc doc a rep

/-- C3 witness: a concrete nonempty filter set and a key outside it. -/
theorem c3_filter_exclusivity_witness :
    lookupFC (insertKeyframes emptyAction [egRecord]
      (some [(("rotation_euler", 0) : Key)]) true).1 "location" 0 =
      lookupFC emptyAction "location" 0 :=
  (c3_filter_exclusivity emptyAction [egRecord] true [(("rotation_euler", 0) : Key)]
    (by decide) "location" 0 (by decide)).1

theorem except_map_ok {α β : Type} {f : α → β} {x : Except PyError α} {b : β}
    (h : x.map f = .ok b) : ∃ a, x = .ok a := by
  cases x with
  | error e => cases h
  | ok a => exact ⟨a, rfl⟩

theorem except_bind_ok {α β : Type} {x : Except PyError α} {g : α → Except PyError β} {b : β}
    (h : x.bind g = .ok b) : ∃ a, x = .ok a := by
  cases x with
  | error e => cases h
  | ok a => exact ⟨a, rfl⟩

theorem getField_ok_isSome {α : Type} {o : Option α} {fld : String} {a : α}
    (h : getField o fld = .ok a) : o.isNone = false := by
  cases o with
  | none => cases h
  | some x => rfl

theorem applyAttrs_none_all_ok {L : List (Except PyError (Keyframe → Keyframe))}
    {a : Action} {i : Nat} {t : ℚ} {rep : List Key}
    (h : (applyAttrs a i t rep L).2.2 = none) : ∀ u ∈ L, ∃ f, u = .ok f := by
  induction L generalizing a with
  | nil => intro u hu; cases hu
  | cons u0 rest ih =>
    cases u0 with
    | error e => cases h
    | ok f =>
      intro u hu
      rcases List.mem_cons.mp hu with h1 | h1
      · exact ⟨f, h1⟩
      · exact ih (by exact h) u h1

theorem attrSetters_fields {r : RawRecord}
    (hall : ∀ u ∈ attrSetters r, ∃ f, u = Except.ok f) :
    r.amplitude.isNone = false ∧ r.back.isNone = false ∧ r.easing.isNone = false ∧
    r.handle_left.isNone = false ∧ r.handle_left_type.isNone = false ∧
    r.handle_right.isNone = false ∧ r.handle_right_type.isNone = false ∧
    r.interpolation.isNone = false ∧ r.period.isNone = false := by
  simp only [attrSetters, List.forall_mem_cons, List.not_mem_nil, false_implies,
    implies_true, and_true] at hall
  obtain ⟨h1, h2, h3, h4, h5, h6, h7, h8, h9⟩ := hall
  refine ⟨?_, ?_, ?_, ?_, ?_, ?_, ?_, ?_, ?_⟩
  · obtain ⟨f, hf⟩ := h1
    obtain ⟨y, hy⟩ := except_map_ok hf
    obtain ⟨z, hz⟩ := except_bind_ok hy
    exact getField_ok_isSome hz
  · obtain ⟨f, hf⟩ := h2
    obtain ⟨y, hy⟩ := except_map_ok hf
    obtain ⟨z, hz⟩ := except_bind_ok hy
    exact getField_ok_isSome hz
  · obtain ⟨f, hf⟩ := h3
    obtain ⟨y, hy⟩ := except_map_ok hf
    exact getField_ok_isSome hy
  · obtain ⟨f, hf⟩ := h4
    obtain ⟨y, hy⟩ := except_map_ok hf
    obtain ⟨z, hz⟩ := except_bind_ok hy
    obtain ⟨w, hw⟩ := except_bind_ok hz
    exact getField_ok_isSome hw
  · obtain ⟨f, hf⟩ := h5
    obtain ⟨y, hy⟩ := except_map_ok hf
    exact getField_ok_isSome hy
  · obtain ⟨f, hf⟩ := h6
    obtain ⟨y, hy⟩ := except_map_ok hf
    obtain ⟨z, hz⟩ := except_bind_ok hy
    obtain ⟨w, hw⟩ := except_bind_ok hz
    exact getField_ok_isSome hw
  · obtain ⟨f, hf⟩ := h7
    obtain ⟨y, hy⟩ := except_map_ok hf
    exact getField_ok_isSome hy
  · obtain ⟨f, hf⟩ := h8
    obtain ⟨y, hy⟩ := except_map_ok hf
    exact getField_ok_isSome hy
  · obtain ⟨f, hf⟩ := h9
    obtain ⟨y, hy⟩ := except_map_ok hf
    obtain ⟨z, hz⟩ := except_bind_ok hy
    exact getField_ok_isSome hz

theorem processRecord_none_fields {rc : Bool} {a : Action} {rep : List Key} {r : RawRecord}
    (h : (processRecord none rc a rep r).2.2 = none) : recordMissingField r = false := by
  unfold processRecord at h
  split at h
  · cases h
  · next dp hdp =>
    split at h
    · cases h
    · next ai hai =>
      rw [if_neg (by rw [show skips none (dp, ai) = false from rfl]; simp)] at h
      unfold processAfterTouch at h
      split at h
      · cases h
      · next co hco =>
        split at h
        · cases h
        · next ty hty =>
          split at h
          · cases h
          · next tv htv =>
            obtain ⟨f1, f2, f3, f4, f5, f6, f7, f8, f9⟩ :=
              attrSetters_fields (applyAttrs_none_all_ok h)
            simp [recordMissingField, hdp, hai, hco, hty, f1, f2, f3, f4, f5, f6, f7, f8, f9]

theorem processRecord_missing_some {rc : Bool} {a : Action} {rep : List Key} {r : RawRecord}
    (h : recordMissingField r = true) :
    ∃ e, (processRecord none rc a rep r).2.2 = some e := by
  cases hE : (processRecord none rc a rep r).2.2 with
  | some e => exact ⟨e, rfl⟩
  | none => rw [processRecord_none_fields hE] at h; cases h

theorem parseRecord_ok_inv {r : RawRecord} {dp : String} {ai : Int} {kf : Keyframe}
    (h : parseRecord r = .ok (dp, ai, kf)) :
    r.data_path = some dp ∧ r.array_index = some ai ∧
    ∃ co ty tv, r.co = some co ∧ r.type = some ty ∧ coMk co = .ok tv ∧
      applyList (attrSetters r) (Keyframe.fresh tv.1 tv.2 ty) = .ok kf := by
  unfold parseRecord at h
  split at h
  · cases h
  · next dp0 hdp =>
    split at h
    · cases h
    · next ai0 hai =>
      split at h
      · cases h
      · next co0 hco =>
        split at h
        · cases h
        · next ty0 hty =>
          split at h
          · cases h
          · next tv0 htv =>
            split at h
            · cases h
            · next kf0 happ =>
              cases h
              exact ⟨hdp, hai, co0, ty0, tv0, hco, hty, htv, happ⟩

theorem applyList_ok_all {L : List (Except PyError (Keyframe → Keyframe))} {p kf : Keyframe}
    (h : applyList L p = .ok kf) : ∀ u ∈ L, ∃ f, u = .ok f := by
  induction L generalizing p with
  | nil => intro u hu; cases hu
  | cons u0 rest ih =>
    cases u0 with
    | error e => cases h
    | ok f =>
      intro u hu
      rcases List.mem_cons.mp hu with h1 | h1
      · exact ⟨f, h1⟩
      · exact ih (p := f p) h u h1

theorem applyAttrs_none_of_all_ok {L : List (Except PyError (Keyframe → Keyframe))}
    (h : ∀ u ∈ L, ∃ f, u = .ok f) (a : Action) (i : Nat) (t : ℚ) (rep : List Key) :
    (applyAttrs a i t rep L).2.2 = none := by
  induction L generalizing a with
  | nil => rfl
  | cons u0 rest ih =>
    cases u0 with
    | error e =>
      obtain ⟨f, hf⟩ := h _ (List.mem_cons_self _ _)
      cases hf
    | ok f => exact ih (fun u hu => h u (List.mem_cons_of_mem _ hu)) _

theorem processRecord_none_of_parse {filt : Option (List Key)} {rc : Bool} {a : Action}
    {rep : List Key} {r : RawRecord} {dp : String} {ai : Int} {kf : Keyframe}
    (h : parseRecord r = .ok (dp, ai, kf)) :
    (processRecord filt rc a rep r).2.2 = none := by
  obtain ⟨hdp, hai, co, ty, tv, hco, hty, htv, happ⟩ := parseRecord_ok_inv h
  unfold processRecord
  simp only [hdp, hai]
  by_cases hs : skips filt (dp, ai) = true
  · rw [if_pos hs]
  · rw [if_neg hs]
    unfold processAfterTouch
    simp only [hco, hty, htv]
    exact applyAttrs_none_of_all_ok (applyList_ok_all happ) _ _ _ _

theorem processRecord_none_of_ok {filt : Option (List Key)} {rc : Bool} {a : Action}
    {rep : List Key} {r : RawRecord} (h : recordOk r = true) :
    (processRecord filt rc a rep r).2.2 = none := by
  unfold recordOk at h
  cases hp : parseRecord r with
  | error e => rw [hp] at h; cases h
  | ok x =>
    obtain ⟨dp, ai, kf⟩ := x
    exact processRecord_none_of_parse hp

theorem insertLoop_first_error (rc : Bool) (pre : List RawRecord) (bad : RawRecord)
    (suf : List RawRecord) (hpre : ∀ r ∈ pre, recordOk r = true)
    (hbad : recordMissingField bad = true) (a : Action) (rep : List Key) :
    insertLoop none rc a rep (pre ++ bad :: suf) = insertLoop none rc a rep (pre ++ [bad]) ∧
    ∃ e, (insertLoop none rc a rep (pre ++ bad :: suf)).2.2 = some e ∧ isMDE e = true := by
  induction pre generalizing a rep with
  | nil =>
    simp only [List.nil_append]
    obtain ⟨e, he⟩ := @processRecord_missing_some rc a rep _ hbad
    cases hp : processRecord none rc a rep bad with
    | mk a1 rest1 =>
      cases rest1 with
      | mk rep1 err1 =>
        have he1 : err1 = some e := by rw [hp] at he; exact he
        subst he1
        have hstop : ∀ X, insertLoop none rc a rep (bad :: X) = (a1, rep1, some e) := by
          intro X
          conv_lhs => rw [insertLoop]
          rw [hp]
        rw [hstop suf, hstop []]
        exact ⟨rfl, e, rfl, processRecord_error hp⟩
  | cons r0 pre' ih =>
    have hstep : (processRecord none rc a rep r0).2.2 = none :=
      processRecord_none_of_ok (hpre r0 (List.mem_cons_self _ _))
    cases hp : processRecord none rc a rep r0 with
    | mk a1 rest1 =>
      cases rest1 with
      | mk rep1 err1 =>
        have he1 : err1 = none := by rw [hp] at hstep; exact hstep
        subst he1
        have hunf : ∀ X, insertLoop none rc a rep (r0 :: X) = insertLoop none rc a1 rep1 X := by
          intro X
          conv_lhs => rw [insertLoop]
          rw [hp]
        rw [List.cons_append, List.cons_append, hunf, hunf]
        exact ih (fun r hr => hpre r (List.mem_cons_of_mem _ hr)) a1 rep1

theorem insertKeyframes_snd (a : Action) (doc : List RawRecord) (filt : Option (List Key))
    (rc : Bool) : (insertKeyframes a doc filt rc).2 = (insertLoop filt rc a [] doc).2.2 := by
  unfold insertKeyframes
  cases h : insertLoop filt rc a [] doc with
  | mk a1 rest1 =>
    cases rest1 with
    | mk rep1 e1 => rfl

theorem insertKeyframes_fst (a : Action) (doc : List RawRecord) (filt : Option (List Key))
    (rc : Bool) : (insertKeyframes a doc filt rc).1 = (insertLoop filt rc a [] doc).1 := by
  unfold insertKeyframes
  cases h : insertLoop filt rc a [] doc with
  | mk a1 rest1 =>
    cases rest1 with
    | mk rep1 e1 => rfl

theorem actionImporter_ok (nm : String) (kfs : List RawRecord) (obj : Obj) :
    actionImporterExecute (Except.ok ({ name := some nm, keyframes := some kfs } : RawDoc)) obj =
      (Obj.mk (some (AnimData.mk (some (insertKeyframes (Action.mk nm []) kfs none true).1))),
        (insertKeyframes (Action.mk nm []) kfs none true).2) := by
  have hred : actionImporterExecute
      (Except.ok ({ name := some nm, keyframes := some kfs } : RawDoc)) obj =
      (match insertKeyframes (Action.mk nm []) kfs none true with
        | (a', e) => (Obj.mk (some (AnimData.mk (some a'))), e)) := rfl
  rw [hred]

/-- C8: a malformed document propagates a malformed-document error
(the spec's `MalformedDocumentError`) to the caller, and once the
malformation is detected no further mutation is committed.  A JSON
parse failure is propagated before any mutation, leaving the target
unchanged; a record with a missing required field makes the record loop
raise at that record, and the outcome is identical to running on the
document truncated right after the malformed record — nothing after
the detection point is ever applied. -/
theorem c8_malformed_document (obj : Obj) (nm : String) (pre : List RawRecord)
    (bad : RawRecord) (suf : List RawRecord)
    (hpre : ∀ r ∈ pre, recordOk r = true) (hbad : recordMissingField bad = true) :
    actionImporterExecute (Except.error PyError.jsonDecodeError) obj =
      (obj, some PyError.jsonDecodeError) ∧
    (∃ e, (actionImporterExecute
        (Except.ok ({ name := some nm, keyframes := some (pre ++ bad :: suf) } : RawDoc)) obj).2 =
        some e ∧ isMDE e = true) ∧
    actionImporterExecute
        (Except.ok ({ name := some nm, keyframes := some (pre ++ bad :: suf) } : RawDoc)) obj =
      actionImporterExecute
        (Except.ok ({ name := some nm, keyframes := some (pre ++ [bad]) } : RawDoc)) obj := by
  obtain ⟨hL, e, he, hm⟩ :=
    insertLoop_first_error true pre bad suf hpre hbad (Action.mk nm []) []
  refine ⟨rfl, ⟨e, ?_, hm⟩, ?_⟩
  · rw [actionImporter_ok]
    show (insertKeyframes (Action.mk nm []) (pre ++ bad :: suf) none true).2 = some e
    rw [insertKeyframes_snd]
    exact he
  · rw [actionImporter_ok, actionImporter_ok]
    have hik : insertKeyframes (Action.mk nm []) (pre ++ bad :: suf) none true =
        insertKeyframes (Action.mk nm []) (pre ++ [bad]) none true := by
      unfold insertKeyframes
      rw [hL]
    rw [hik]

/-- C8 witness: a record missing its amplitude field, with one valid
record before it and one after. -/
theorem c8_malformed_document_witness :
    (∃ e, (actionImporterExecute
        (Except.ok ({ name := some "Test",
                      keyframes := some ([egRecord] ++ egRecordNoAmp :: [egRecord]) } : RawDoc))
        egObjNoAnim).2 = some e ∧ isMDE e = true) ∧
    actionImporterExecute
        (Except.ok ({ name := some "Test",
                      keyframes := some ([egRecord] ++ egRecordNoAmp :: [egRecord]) } : RawDoc))
        egObjNoAnim =
      actionImporterExecute
        (Except.ok ({ name := some "Test",
                      keyframes := some ([egRecord] ++ [egRecordNoAmp]) } : RawDoc))
        egObjNoAnim :=
  ⟨(c8_malformed_document egObjNoAnim "Test" [egRecord] egRecordNoAmp
      [egRecord] (by decide) (by decide)).2.1,
   (c8_malformed_document egObjNoAnim "Test" [egRecord] egRecordNoAmp
      [egRecord] (by decide) (by decide)).2.2⟩

theorem modifyIdx_id {α : Type} (i : Nat) (l : List α) :
    modifyIdx (fun x => x) i l = l := by
  induction l generalizing i with
  | nil => cases i <;> rfl
  | cons x rest ih =>
    cases i with
    | zero => rfl
    | succ n => rw [modifyIdx, ih n]

theorem modifyIdx_comp {α : Type} (f g : α → α) (i : Nat) (l : List α) :
    modifyIdx g i (modifyIdx f i l) = modifyIdx (fun x => g (f x)) i l := by
  induction l generalizing i with
  | nil => cases i <;> rfl
  | cons x rest ih =>
    cases i with
    | zero => rfl
    | succ n =>
      show x :: modifyIdx g n (modifyIdx f n rest) = x :: modifyIdx (fun y => g (f y)) n rest
      rw [ih n]

theorem modifyIdx_congr {α : Type} {f g : α → α} {i : Nat} {l : List α} {x : α}
    (hget : l.get? i = some x) (hfg : f x = g x) : modifyIdx f i l = modifyIdx g i l := by
  induction l generalizing i with
  | nil => cases i <;> cases hget
  | cons y rest ih =>
    cases i with
    | zero =>
      have hyx : y = x := by simpa using hget
      subst hyx
      show f y :: rest = g y :: rest
      rw [hfg]
    | succ n =>
      show y :: modifyIdx f n rest = y :: modifyIdx g n rest
      rw [ih hget]

theorem modifyIdx_append_length {α : Type} (f : α → α) (l : List α) (x : α) :
    modifyIdx f l.length (l ++ [x]) = l ++ [f x] := by
  induction l with
  | nil => rfl
  | cons y rest ih =>
    show y :: modifyIdx f rest.length (rest ++ [x]) = y :: (rest ++ [f x])
    rw [ih]

theorem findKey_modifyIdx (f : FCurve → FCurve) (i : Nat) (l : List FCurve)
    (hf : ∀ fc, keyOf (f fc) = keyOf fc) (dp : String) (ai : Int) :
    findKey (modifyIdx f i l) dp ai = findKey l dp ai := by
  induction l generalizing i with
  | nil => cases i <;> rfl
  | cons x rest ih =>
    have hmatch : ∀ y : FCurve, keyOf y = keyOf x →
        ((y.data_path = dp ∧ y.array_index = ai) ↔ (x.data_path = dp ∧ x.array_index = ai)) := by
      intro y hy
      rw [keyOf, keyOf, Prod.mk.injEq] at hy
      rw [hy.1, hy.2]
    cases i with
    | zero =>
      simp only [modifyIdx, findKey]
      by_cases hx : x.data_path = dp ∧ x.array_index = ai
      · rw [if_pos hx, if_pos ((hmatch (f x) (hf x)).mpr hx)]
      · rw [if_neg hx, if_neg (fun hc => hx ((hmatch (f x) (hf x)).mp hc))]
    | succ n =>
      simp only [modifyIdx, findKey]
      rw [ih n]

theorem lookupFC_some_inv {a : Action} {dp : String} {ai : Int} {fc : FCurve}
    (h : lookupFC a dp ai = some fc) :
    ∃ i, findKey a.fcurves dp ai = some i ∧ a.fcurves.get? i = some fc := by
  unfold lookupFC at h
  cases hf : findKey a.fcurves dp ai with
  | none => rw [hf] at h; cases h
  | some i => rw [hf] at h; exact ⟨i, rfl, h⟩

theorem lookupFC_mk {a : Action} {dp : String} {ai : Int} {fc : FCurve} {i : Nat}
    (hf : findKey a.fcurves dp ai = some i) (hg : a.fcurves.get? i = some fc) :
    lookupFC a dp ai = some fc := by
  unfold lookupFC
  rw [hf]
  exact hg

theorem timesOf_cons (p : Keyframe) (pts : List Keyframe) :
    timesOf (p :: pts) = p.co.1 :: timesOf pts := rfl

theorem setAtTime_not_mem {t : ℚ} {pts : List Keyframe} (F : Keyframe → Keyframe)
    (h : t ∉ timesOf pts) : setAtTime t F pts = pts := by
  induction pts with
  | nil => rfl
  | cons p rest ih =>
    rw [timesOf_cons, List.mem_cons, not_or] at h
    unfold setAtTime
    rw [List.map_cons, if_neg (fun hc => h.1 hc.symm)]
    have := ih h.2
    unfold setAtTime at this
    rw [this]

theorem sortedIns_length_fresh {kf : Keyframe} {pts : List Keyframe}
    (h : kf.co.1 ∉ timesOf pts) : (sortedIns kf pts).length = pts.length + 1 := by
  induction pts with
  | nil => rfl
  | cons p rest ih =>
    rw [timesOf_cons, List.mem_cons, not_or] at h
    unfold sortedIns
    by_cases h1 : kf.co.1 < p.co.1
    · rw [if_pos h1]
      simp
    · rw [if_neg h1, if_neg h.1]
      simp only [List.length_cons]
      rw [ih h.2]

theorem sortedIns_perm_fresh {kf : Keyframe} {pts : List Keyframe}
    (h : kf.co.1 ∉ timesOf pts) : (sortedIns kf pts).Perm (kf :: pts) := by
  induction pts with
  | nil => exact List.Perm.refl _
  | cons p rest ih =>
    rw [timesOf_cons, List.mem_cons, not_or] at h
    unfold sortedIns
    by_cases h1 : kf.co.1 < p.co.1
    · rw [if_pos h1]
    · rw [if_neg h1, if_neg h.1]
      exact ((ih h.2).cons p).trans (List.Perm.swap kf p rest)

theorem sortedIns_append_gt {kf : Keyframe} {pts : List Keyframe}
    (h : ∀ t ∈ timesOf pts, t < kf.co.1) : sortedIns kf pts = pts ++ [kf] := by
  induction pts with
  | nil => rfl
  | cons p rest ih =>
    have hp := h p.co.1 (by rw [timesOf_cons]; exact List.mem_cons_self _ _)
    unfold sortedIns
    rw [if_neg (by exact fun hc => absurd hp (lt_asymm hc)),
      if_neg (by exact fun hc => absurd hp (by rw [hc]; exact lt_irrefl _)),
      ih (fun t ht => h t (by rw [timesOf_cons]; exact List.mem_cons_of_mem _ ht))]
    rfl

theorem setAtTime_id (t : ℚ) (pts : List Keyframe) : setAtTime t (fun p => p) pts = pts := by
  unfold setAtTime
  simp

theorem setCurve_points_id (a : Action) (i : Nat) :
    setCurve a i (fun fc => { fc with points := fc.points }) = a := by
  unfold setCurve
  have h : (fun fc : FCurve => { fc with points := fc.points }) = fun fc => fc := by
    funext fc
    rfl
  rw [h, modifyIdx_id]

theorem setCurve_setCurve (a : Action) (i : Nat) (f g : FCurve → FCurve) :
    setCurve (setCurve a i f) i g = setCurve a i (fun fc => g (f fc)) := by
  unfold setCurve
  rw [modifyIdx_comp]

theorem setAtTime_comp (t : ℚ) (f g : Keyframe → Keyframe)
    (hf : ∀ p, (f p).co = p.co) (pts : List Keyframe) :
    setAtTime t g (setAtTime t f pts) = setAtTime t (fun p => g (f p)) pts := by
  unfold setAtTime
  rw [List.map_map]
  apply List.map_congr_left
  intro p _
  by_cases hp : p.co.1 = t
  · have hfp : (f p).co.1 = t := by rw [hf p]; exact hp
    simp only [Function.comp_apply, if_pos hp, if_pos hfp]
  · simp only [Function.comp_apply, if_neg hp]

theorem map_ok_inv {α β : Type} {x : Except PyError α} {g : α → β} {b : β}
    (h : x.map g = .ok b) : ∃ a, x = .ok a ∧ g a = b := by
  cases x with
  | error e => cases h
  | ok a =>
    refine ⟨a, rfl, ?_⟩
    have : (Except.ok (g a) : Except PyError β) = Except.ok b := h
    cases this
    rfl

theorem attrSetters_ok_safe (r : RawRecord) :
    ∀ u ∈ attrSetters r, ∀ f, u = Except.ok f →
      (∀ p, (f p).co = p.co) ∧ (∀ p, (f p).type = p.type) := by
  simp only [attrSetters, List.forall_mem_cons, List.not_mem_nil, false_implies,
    implies_true, and_true]
  refine ⟨?_, ?_, ?_, ?_, ?_, ?_, ?_, ?_, ?_⟩
  all_goals {
    intro f hf
    obtain ⟨v, hx, hfv⟩ := map_ok_inv hf
    subst hfv
    exact ⟨fun p => rfl, fun p => rfl⟩
  }

theorem applyList_cons_ok (f : Keyframe → Keyframe)
    (rest : List (Except PyError (Keyframe → Keyframe))) (p : Keyframe) :
    applyList (Except.ok f :: rest) p = applyList rest (f p) := rfl

theorem applyAttrs_track {L : List (Except PyError (Keyframe → Keyframe))}
    (hok : ∀ u ∈ L, ∃ f, u = Except.ok f ∧
      (∀ p, (f p).co = p.co) ∧ (∀ p, (f p).type = p.type)) :
    ∃ F : Keyframe → Keyframe,
      (∀ p, applyList L p = .ok (F p)) ∧ (∀ p, (F p).co = p.co) ∧
      (∀ p, (F p).type = p.type) ∧
      (∀ a i t rep, applyAttrs a i t rep L =
        (setCurve a i (fun fc => { fc with points := setAtTime t F fc.points }), rep, none)) := by
  induction L with
  | nil =>
    refine ⟨fun p => p, fun p => rfl, fun p => rfl, fun p => rfl, ?_⟩
    intro a i t rep
    rw [applyAttrs]
    have h : (fun fc : FCurve => { fc with points := setAtTime t (fun p => p) fc.points }) =
        fun fc => { fc with points := fc.points } := by
      funext fc
      rw [setAtTime_id]
    rw [h, setCurve_points_id]
  | cons u rest ih =>
    obtain ⟨f, hu, hfco, hfty⟩ := hok u (List.mem_cons_self _ _)
    subst hu
    obtain ⟨F', h1, h2, h3, h4⟩ := ih (fun v hv => hok v (List.mem_cons_of_mem _ hv))
    refine ⟨fun p => F' (f p), ?_, ?_, ?_, ?_⟩
    · intro p
      rw [applyList_cons_ok]
      exact h1 (f p)
    · intro p
      rw [h2 (f p), hfco p]
    · intro p
      rw [h3 (f p), hfty p]
    · intro a i t rep
      rw [applyAttrs, h4, setCurve_setCurve]
      have h : (fun fc : FCurve =>
          { fc with points := setAtTime t F' (setAtTime t f fc.points) }) =
          fun fc => { fc with points := setAtTime t (fun p => F' (f p)) fc.points } := by
        funext fc
        rw [setAtTime_comp t f F' hfco]
      exact congrArg (fun G => (setCurve a i G, rep, (none : Option PyError))) h

theorem setAtTime_insertPoint_fresh (F : Keyframe → Keyframe) (t v : ℚ) (ty : String)
    (pts : List Keyframe) (hfresh : t ∉ timesOf pts)
    (hFco : (F (Keyframe.fresh t v ty)).co = (t, v)) :
    setAtTime t F (insertPoint t v ty pts) = sortedIns (F (Keyframe.fresh t v ty)) pts := by
  induction pts with
  | nil =>
    unfold insertPoint setAtTime sortedIns
    rw [List.map_cons]
    rw [if_pos (show (Keyframe.fresh t v ty).co.1 = t from rfl)]
    rfl
  | cons p rest ih =>
    rw [timesOf_cons, List.mem_cons, not_or] at hfresh
    unfold insertPoint
    by_cases h1 : t < p.co.1
    · rw [if_pos h1]
      unfold setAtTime
      rw [List.map_cons, if_pos (show (Keyframe.fresh t v ty).co.1 = t from rfl)]
      have hrest : setAtTime t F (p :: rest) = p :: rest :=
        setAtTime_not_mem F (by rw [timesOf_cons, List.mem_cons, not_or]; exact hfresh)
      unfold setAtTime at hrest
      rw [hrest]
      unfold sortedIns
      rw [if_pos (by rw [show (F (Keyframe.fresh t v ty)).co.1 = t by rw [hFco]]; exact h1)]
    · rw [if_neg h1, if_neg (fun hc => hfresh.1 hc)]
      unfold setAtTime
      rw [List.map_cons, if_neg (fun hc => hfresh.1 hc.symm)]
      have hih := ih hfresh.2
      unfold setAtTime at hih
      rw [hih]
      conv_rhs => rw [sortedIns]
      rw [if_neg (by rw [show (F (Keyframe.fresh t v ty)).co.1 = t by rw [hFco]]; exact h1),
        if_neg (by rw [show (F (Keyframe.fresh t v ty)).co.1 = t by rw [hFco]]
                   exact fun hc => hfresh.1 hc)]

theorem processAfterTouch_ok_char {r : RawRecord} {dp : String} {ai : Int} {kf : Keyframe}
    (hp : parseRecord r = .ok (dp, ai, kf)) (a1 : Action) (i : Nat) (rep1 : List Key)
    {fc : FCurve} (hget : a1.fcurves.get? i = some fc)
    (hfresh : kf.co.1 ∉ timesOf fc.points) :
    processAfterTouch a1 i rep1 r =
      ({ a1 with fcurves :=
          modifyIdx (fun fc0 => { fc0 with points := sortedIns kf fc0.points }) i a1.fcurves },
        rep1, none) := by
  obtain ⟨hdp, hai, co, ty, tv, hco, hty, htv, happ⟩ := parseRecord_ok_inv hp
  have hok : ∀ u ∈ attrSetters r, ∃ f, u = Except.ok f ∧
      (∀ p, (f p).co = p.co) ∧ (∀ p, (f p).type = p.type) := by
    intro u hu
    obtain ⟨f, hf⟩ := applyList_ok_all happ u hu
    exact ⟨f, hf, attrSetters_ok_safe r u hu f hf⟩
  obtain ⟨F, hF1, hF2, hF3, hF4⟩ := applyAttrs_track hok
  have hkf : F (Keyframe.fresh tv.1 tv.2 ty) = kf := by
    have h := hF1 (Keyframe.fresh tv.1 tv.2 ty)
    rw [happ] at h
    exact (Except.ok.inj h).symm
  have hco1 : kf.co = (tv.1, tv.2) := by
    rw [← hkf, hF2]
    rfl
  unfold processAfterTouch
  simp only [hco, hty, htv]
  rw [hF4, setCurve_setCurve]
  have hpoint : (fun fc0 : FCurve =>
      { fc0 with points := setAtTime tv.1 F (insertPoint tv.1 tv.2 ty fc0.points) }) fc =
      (fun fc0 : FCurve => { fc0 with points := sortedIns kf fc0.points }) fc := by
    show ({ fc with points := setAtTime tv.1 F (insertPoint tv.1 tv.2 ty fc.points) } : FCurve) =
      { fc with points := sortedIns kf fc.points }
    rw [setAtTime_insertPoint_fresh F tv.1 tv.2 ty fc.points
      (by rw [show tv.1 = kf.co.1 by rw [hco1]]; exact hfresh)
      (by rw [hF2]; rfl)]
    rw [hkf]
  have hMain : setCurve a1 i (fun fc0 =>
      { fc0 with points := setAtTime tv.1 F (insertPoint tv.1 tv.2 ty fc0.points) }) =
      { a1 with fcurves :=
        modifyIdx (fun fc0 => { fc0 with points := sortedIns kf fc0.points }) i a1.fcurves } := by
    unfold setCurve
    rw [modifyIdx_congr (f := fun fc0 : FCurve =>
        { fc0 with points := setAtTime tv.1 F (insertPoint tv.1 tv.2 ty fc0.points) })
      (g := fun fc0 : FCurve => { fc0 with points := sortedIns kf fc0.points }) hget hpoint]
  rw [hMain]

theorem processRecord_ok_notfound {r : RawRecord} {dp : String} {ai : Int} {kf : Keyframe}
    (hp : parseRecord r = .ok (dp, ai, kf)) (filt : Option (List Key))
    (hskip : skips filt (dp, ai) = false) (rc : Bool) (a : Action) (rep : List Key)
    (hfind : findKey a.fcurves dp ai = none) :
    processRecord filt rc a rep r =
      ({ a with fcurves := a.fcurves ++ [{ data_path := dp, array_index := ai, points := [kf] }] },
       (if rc then insertKey rep (dp, ai) else rep), none) := by
  obtain ⟨hdp, hai, _⟩ := parseRecord_ok_inv hp
  unfold processRecord
  simp only [hdp, hai, hskip, Bool.false_eq_true, if_false]
  have htouch : touchFCurve a dp ai (rc && !(rep.contains (dp, ai))) =
      ({ a with fcurves :=
          a.fcurves ++ [{ data_path := dp, array_index := ai, points := [] }] },
        a.fcurves.length) := by
    unfold touchFCurve
    rw [hfind]
  rw [htouch]
  have hget0 : (a.fcurves ++
      [({ data_path := dp, array_index := ai, points := [] } : FCurve)]).get?
      a.fcurves.length = some { data_path := dp, array_index := ai, points := [] } :=
    List.get?_concat_length _ _
  have hchar := processAfterTouch_ok_char hp
    { a with fcurves := a.fcurves ++ [{ data_path := dp, array_index := ai, points := [] }] }
    a.fcurves.length (if rc then insertKey rep (dp, ai) else rep)
    hget0
    (by simp [timesOf])
  rw [hchar]
  have hA : ({ a with fcurves :=
      a.fcurves ++ [{ data_path := dp, array_index := ai, points := [] }] } : Action).fcurves =
      a.fcurves ++ [{ data_path := dp, array_index := ai, points := [] }] := rfl
  rw [hA, modifyIdx_append_length]
  rfl

theorem processRecord_ok_found_merge {r : RawRecord} {dp : String} {ai : Int} {kf : Keyframe}
    (hp : parseRecord r = .ok (dp, ai, kf)) (filt : Option (List Key))
    (hskip : skips filt (dp, ai) = false) (rc : Bool) (a : Action) (rep : List Key)
    {i : Nat} {fc : FCurve} (hfind : findKey a.fcurves dp ai = some i)
    (hget : a.fcurves.get? i = some fc)
    (hrp : (rc && !(rep.contains (dp, ai))) = false)
    (hfresh : kf.co.1 ∉ timesOf fc.points) :
    processRecord filt rc a rep r =
      ({ a with fcurves :=
          modifyIdx (fun fc0 => { fc0 with points := sortedIns kf fc0.points }) i a.fcurves },
       (if rc then insertKey rep (dp, ai) else rep), none) := by
  obtain ⟨hdp, hai, _⟩ := parseRecord_ok_inv hp
  unfold processRecord
  simp only [hdp, hai, hskip, Bool.false_eq_true, if_false]
  have htouch : touchFCurve a dp ai (rc && !(rep.contains (dp, ai))) = (a, i) := by
    unfold touchFCurve
    rw [hfind, hrp]
    rfl
  rw [htouch]
  exact processAfterTouch_ok_char hp a i _ hget hfresh

theorem processRecord_ok_found_replace {r : RawRecord} {dp : String} {ai : Int} {kf : Keyframe}
    (hp : parseRecord r = .ok (dp, ai, kf)) (filt : Option (List Key))
    (hskip : skips filt (dp, ai) = false) (rc : Bool) (a : Action) (rep : List Key)
    {i : Nat} (hfind : findKey a.fcurves dp ai = some i)
    (hrp : (rc && !(rep.contains (dp, ai))) = true) :
    processRecord filt rc a rep r =
      ({ a with fcurves := removeIdx a.fcurves i ++
          [{ data_path := dp, array_index := ai, points := [kf] }] },
       insertKey rep (dp, ai), none) := by
  obtain ⟨hdp, hai, _⟩ := parseRecord_ok_inv hp
  have hrc : rc = true := by
    cases rc with
    | true => rfl
    | false => cases hrp
  subst hrc
  unfold processRecord
  simp only [hdp, hai, hskip, Bool.false_eq_true, if_false, if_true]
  have htouch : touchFCurve a dp ai (true && !(rep.contains (dp, ai))) =
      ({ a with fcurves := removeIdx a.fcurves i ++
          [{ data_path := dp, array_index := ai, points := [] }] },
        (removeIdx a.fcurves i).length) := by
    unfold touchFCurve
    rw [hfind, hrp]
    rfl
  rw [htouch]
  have hget0 : (removeIdx a.fcurves i ++
      [({ data_path := dp, array_index := ai, points := [] } : FCurve)]).get?
      (removeIdx a.fcurves i).length =
      some { data_path := dp, array_index := ai, points := [] } :=
    List.get?_concat_length _ _
  have hchar := processAfterTouch_ok_char hp
    { a with fcurves := removeIdx a.fcurves i ++
        [{ data_path := dp, array_index := ai, points := [] }] }
    (removeIdx a.fcurves i).length (insertKey rep (dp, ai))
    hget0
    (by simp [timesOf])
  rw [hchar]
  have hA : ({ a with fcurves := removeIdx a.fcurves i ++
      [{ data_path := dp, array_index := ai, points := [] }] } : Action).fcurves =
      removeIdx a.fcurves i ++
        [{ data_path := dp, array_index := ai, points := [] }] := rfl
  rw [hA, modifyIdx_append_length]
  rfl

theorem contains_true_of_mem {l : List Key} {k : Key} (h : k ∈ l) : l.contains k = true := by
  simpa using h

theorem insertKey_of_mem {rep : List Key} {k : Key} (h : k ∈ rep) : insertKey rep k = rep := by
  unfold insertKey
  rw [if_pos h]

theorem c2_loop (dp : String) (ai : Int) {docs : List RawRecord} {kfs : List Keyframe}
    (hpar : List.Forall₂ (fun r kf => parseRecord r = Except.ok (dp, ai, kf)) docs kfs) :
    ∀ (nm : String) (base : List FCurve) (pts : List Keyframe) (rep : List Key),
    findKey base dp ai = none →
    ((dp, ai) : Key) ∈ rep →
    (kfs.map (fun kf => kf.co.1)).Nodup →
    (∀ t ∈ timesOf pts, t ∉ kfs.map (fun kf => kf.co.1)) →
    ∃ ptsN,
      insertLoop none true (Action.mk nm (base ++ [FCurve.mk dp ai pts])) rep docs =
        (Action.mk nm (base ++ [FCurve.mk dp ai ptsN]), rep, none) ∧
      ptsN.length = pts.length + docs.length ∧
      (timesOf ptsN).Perm (timesOf pts ++ kfs.map (fun kf => kf.co.1)) := by
  induction hpar with
  | nil =>
    intro nm base pts rep hbase hmem hnd hdisj
    exact ⟨pts, rfl, rfl, by simp⟩
  | @cons r kf docs' kfs' hr hrest ih =>
    intro nm base pts rep hbase hmem hnd hdisj
    have hfind : findKey (base ++ [FCurve.mk dp ai pts]) dp ai = some base.length :=
      findKey_append_of_none base _ dp ai hbase ⟨rfl, rfl⟩
    have hget : (base ++ [FCurve.mk dp ai pts]).get? base.length = some (FCurve.mk dp ai pts) :=
      List.get?_concat_length _ _
    have hrp : (true && !(rep.contains (dp, ai))) = false := by
      rw [contains_true_of_mem hmem]
      rfl
    have hfresh : kf.co.1 ∉ timesOf pts := by
      intro hc
      exact hdisj kf.co.1 hc (by rw [List.map_cons]; exact List.mem_cons_self _ _)
    have hstep := processRecord_ok_found_merge hr none rfl true
      (Action.mk nm (base ++ [FCurve.mk dp ai pts])) rep hfind hget hrp hfresh
    have hunroll : insertLoop none true (Action.mk nm (base ++ [FCurve.mk dp ai pts])) rep
        (r :: docs') =
        insertLoop none true
          (Action.mk nm (base ++ [FCurve.mk dp ai (sortedIns kf pts)])) rep docs' := by
      conv_lhs => rw [insertLoop]
      rw [hstep, insertKey_of_mem hmem]
      have hproj : (Action.mk nm (base ++ [FCurve.mk dp ai pts])).fcurves =
          base ++ [FCurve.mk dp ai pts] := rfl
      have hmod : modifyIdx (fun fc0 => { fc0 with points := sortedIns kf fc0.points })
          base.length (base ++ [FCurve.mk dp ai pts]) =
          base ++ [FCurve.mk dp ai (sortedIns kf pts)] := by
        rw [modifyIdx_append_length]
      rw [hproj, hmod]
      rfl
    have hndtail : (kfs'.map (fun kf => kf.co.1)).Nodup := by
      rw [List.map_cons, List.nodup_cons] at hnd
      exact hnd.2
    have hheadnotin : kf.co.1 ∉ kfs'.map (fun kf => kf.co.1) := by
      rw [List.map_cons, List.nodup_cons] at hnd
      exact hnd.1
    have htimes : (timesOf (sortedIns kf pts)).Perm (kf.co.1 :: timesOf pts) := by
      have := (sortedIns_perm_fresh hfresh).map (fun p => p.co.1)
      exact this
    have hdisj' : ∀ t ∈ timesOf (sortedIns kf pts), t ∉ kfs'.map (fun kf => kf.co.1) := by
      intro t ht
      have ht' := htimes.mem_iff.mp ht
      rcases List.mem_cons.mp ht' with h1 | h1
      · subst h1
        exact hheadnotin
      · intro hc
        exact hdisj t h1 (by rw [List.map_cons]; exact List.mem_cons_of_mem _ hc)
    obtain ⟨ptsN, hloop, hlen, hperm⟩ :=
      ih nm base (sortedIns kf pts) rep hbase hmem hndtail hdisj'
    refine ⟨ptsN, ?_, ?_, ?_⟩
    · rw [hunroll]
      exact hloop
    · rw [hlen, sortedIns_length_fresh hfresh]
      simp only [List.length_cons]
      omega
    · refine hperm.trans ?_
      have h1 : (timesOf (sortedIns kf pts) ++ kfs'.map (fun kf => kf.co.1)).Perm
          ((kf.co.1 :: timesOf pts) ++ kfs'.map (fun kf => kf.co.1)) :=
        htimes.append_right _
      refine h1.trans ?_
      rw [List.cons_append, List.map_cons]
      exact (List.perm_middle).symm

/-- C2: with `replace_curve=true` and a document of N > 1 valid records
sharing one key at pairwise distinct times, importing into a container
whose channel for that key already holds prior points yields exactly N
points in that channel: only the first record's `touch_fcurve` clears
(frees and recreates) the channel, because the key enters the replaced
set, and every later record merges one point into the recreated
channel. -/
theorem c2_first_touch_replace (a : Action) (dp : String) (ai : Int)
    (doc : List RawRecord) (kfs : List Keyframe) (fc0 : FCurve)
    (hu : uniqueKeys a) (hfc : lookupFC a dp ai = some fc0) (hN : 1 < doc.length)
    (hpar : List.Forall₂ (fun r kf => parseRecord r = Except.ok (dp, ai, kf)) doc kfs)
    (hnd : (kfs.map (fun kf => kf.co.1)).Nodup) :
    (insertKeyframes a doc none true).2 = none ∧
    ∃ fc, lookupFC (insertKeyframes a doc none true).1 dp ai = some fc ∧
      fc.points.length = doc.length := by
  cases hpar with
  | nil => cases hN
  | @cons r0 kf0 docs' kfs' hr0 hrest =>
    obtain ⟨i0, hfind0, hget0⟩ := lookupFC_some_inv hfc
    have hrp : (true && !((([] : List Key)).contains (dp, ai))) = true := rfl
    have hstep := processRecord_ok_found_replace hr0 none rfl true a [] hfind0 hrp
    have hbase : findKey (removeIdx a.fcurves i0) dp ai = none := by
      apply findKey_eq_none_of_not_mem
      have hkeys : keysOf (removeIdx a.fcurves i0) = removeIdx (keysOf a.fcurves) i0 :=
        map_removeIdx keyOf i0 a.fcurves
      rw [hkeys]
      have hkget : (keysOf a.fcurves).get? i0 = some ((dp, ai) : Key) := by
        obtain ⟨fcx, hgx, hdx, hax⟩ := findKey_some_get a.fcurves dp ai i0 hfind0
        have := keysOf_get a.fcurves i0 fcx hgx
        rwa [keyOf, hdx, hax] at this
      exact not_mem_removeIdx (keysOf a.fcurves) i0 _ hu hkget
    have hmem : ((dp, ai) : Key) ∈ insertKey [] (dp, ai) := by
      unfold insertKey
      simp
    have hndtail : (kfs'.map (fun kf => kf.co.1)).Nodup := by
      rw [List.map_cons, List.nodup_cons] at hnd
      exact hnd.2
    have hdisj : ∀ t ∈ timesOf [kf0], t ∉ kfs'.map (fun kf => kf.co.1) := by
      intro t ht
      have ht' : t = kf0.co.1 := by
        simpa [timesOf] using ht
      subst ht'
      rw [List.map_cons, List.nodup_cons] at hnd
      exact hnd.1
    obtain ⟨ptsN, hloop, hlen, hperm⟩ :=
      c2_loop dp ai hrest a.name (removeIdx a.fcurves i0) [kf0] (insertKey [] (dp, ai))
        hbase hmem hndtail hdisj
    have hunroll : insertLoop none true a [] (r0 :: docs') =
        (Action.mk a.name (removeIdx a.fcurves i0 ++ [FCurve.mk dp ai ptsN]),
          insertKey [] (dp, ai), none) := by
      conv_lhs => rw [insertLoop]
      rw [hstep]
      exact hloop
    constructor
    · rw [insertKeyframes_snd, hunroll]
    · refine ⟨FCurve.mk dp ai ptsN, ?_, ?_⟩
      · rw [insertKeyframes_fst, hunroll]
        exact lookupFC_mk (findKey_append_of_none _ _ dp ai hbase ⟨rfl, rfl⟩)
          (List.get?_concat_length _ _)
      · rw [hlen]
        simp only [List.length_cons, List.length_nil]
        omega

/-- C2 witness: two records for one key at distinct times, into an
action already holding a prior channel for that key. -/
theorem c2_first_touch_replace_witness :
    (insertKeyframes (Action.mk "A" [FCurve.mk "location" 0 [egKeyframe2]])
      [egRecord, egRecord2] none true).2 = none ∧
    ∃ fc, lookupFC (insertKeyframes (Action.mk "A" [FCurve.mk "location" 0 [egKeyframe2]])
      [egRecord, egRecord2] none true).1 "location" 0 = some fc ∧
      fc.points.length = ([egRecord, egRecord2] : List RawRecord).length :=
  c2_first_touch_replace (Action.mk "A" [FCurve.mk "location" 0 [egKeyframe2]])
    "location" 0 [egRecord, egRecord2] [egKeyframe, egKeyframe2]
    (FCurve.mk "location" 0 [egKeyframe2])
    (by decide) (by decide) (by decide)
    (List.Forall₂.cons rfl (List.Forall₂.cons rfl List.Forall₂.nil))
    (by decide)

theorem applyAttrs_rep (L : List (Except PyError (Keyframe → Keyframe))) (a : Action)
    (i : Nat) (t : ℚ) (rep : List Key) : (applyAttrs a i t rep L).2.1 = rep := by
  induction L generalizing a with
  | nil => rfl
  | cons u rest ih =>
    cases u with
    | error e => rfl
    | ok f => exact ih _

theorem processRecord_rep_false (filt : Option (List Key)) (a : Action) (rep : List Key)
    (r : RawRecord) : (processRecord filt false a rep r).2.1 = rep := by
  unfold processRecord
  split
  · rfl
  · split
    · rfl
    · split
      · rfl
      · unfold processAfterTouch
        split
        · rfl
        · split
          · rfl
          · split
            · rfl
            · exact applyAttrs_rep _ _ _ _ _

theorem lookupFC_some_fields {a : Action} {dp : String} {ai : Int} {fc : FCurve}
    (h : lookupFC a dp ai = some fc) : fc.data_path = dp ∧ fc.array_index = ai := by
  obtain ⟨i, hfind, hget⟩ := lookupFC_some_inv h
  obtain ⟨fc', hget', hdp, hai⟩ := findKey_some_get a.fcurves dp ai i hfind
  rw [hget] at hget'
  cases hget'
  exact ⟨hdp, hai⟩

theorem c9_loop (dp : String) (ai : Int) {docs : List RawRecord}
    {xs : List (String × Int × Keyframe)}
    (hpar : List.Forall₂ (fun r x => parseRecord r = Except.ok x) docs xs) :
    ∀ (a : Action) (rep : List Key) (pts : List Keyframe),
    lookupFC a dp ai = some (FCurve.mk dp ai pts) →
    ((kfsFor dp ai xs).map (fun kf => kf.co.1)).Nodup →
    (∀ t ∈ timesOf pts, t ∉ (kfsFor dp ai xs).map (fun kf => kf.co.1)) →
    ∃ aN ptsN,
      insertLoop none false a rep docs = (aN, rep, none) ∧
      lookupFC aN dp ai = some (FCurve.mk dp ai ptsN) ∧
      ptsN.Perm (pts ++ kfsFor dp ai xs) := by
  induction hpar with
  | nil =>
    intro a rep pts hlk hnd hdisj
    exact ⟨a, pts, rfl, hlk, by simp [kfsFor]⟩
  | @cons r x docs' xs' hr hrest ih =>
    intro a rep pts hlk hnd hdisj
    obtain ⟨xd, xa, kf⟩ := x
    by_cases hk : xd = dp ∧ xa = ai
    · obtain ⟨h1, h2⟩ := hk
      subst h1
      subst h2
      have hkfs : kfsFor xd xa ((xd, xa, kf) :: xs') = kf :: kfsFor xd xa xs' := by
        unfold kfsFor
        rw [List.filter_cons_of_pos (by simp)]
        rfl
      rw [hkfs] at hnd hdisj
      obtain ⟨i, hfind, hget⟩ := lookupFC_some_inv hlk
      have hfresh : kf.co.1 ∉ timesOf pts := by
        intro hc
        exact hdisj kf.co.1 hc (by rw [List.map_cons]; exact List.mem_cons_self _ _)
      have hstep := processRecord_ok_found_merge hr none rfl false a rep hfind hget
        (by rfl) hfresh
      have hlk' : lookupFC (Action.mk a.name
          (modifyIdx (fun fc0 => { fc0 with points := sortedIns kf fc0.points }) i a.fcurves))
          xd xa = some (FCurve.mk xd xa (sortedIns kf pts)) := by
        apply lookupFC_mk (i := i)
        · show findKey (modifyIdx (fun fc0 =>
              { fc0 with points := sortedIns kf fc0.points }) i a.fcurves) xd xa = some i
          rw [findKey_modifyIdx (fun fc0 => { fc0 with points := sortedIns kf fc0.points })
            i a.fcurves (fun fc => rfl)]
          exact hfind
        · show (modifyIdx (fun fc0 =>
              { fc0 with points := sortedIns kf fc0.points }) i a.fcurves).get? i = _
          rw [modifyIdx_get_self, hget]
          rfl
      have hndtail : ((kfsFor xd xa xs').map (fun kf => kf.co.1)).Nodup := by
        rw [List.map_cons, List.nodup_cons] at hnd
        exact hnd.2
      have hheadnotin : kf.co.1 ∉ (kfsFor xd xa xs').map (fun kf => kf.co.1) := by
        rw [List.map_cons, List.nodup_cons] at hnd
        exact hnd.1
      have htimes : (timesOf (sortedIns kf pts)).Perm (kf.co.1 :: timesOf pts) := by
        have h := (sortedIns_perm_fresh hfresh).map (fun p => p.co.1)
        exact h
      have hdisj' : ∀ t ∈ timesOf (sortedIns kf pts),
          t ∉ (kfsFor xd xa xs').map (fun kf => kf.co.1) := by
        intro t ht
        rcases List.mem_cons.mp (htimes.mem_iff.mp ht) with h1 | h1
        · subst h1
          exact hheadnotin
        · intro hc
          exact hdisj t h1 (by rw [List.map_cons]; exact List.mem_cons_of_mem _ hc)
      obtain ⟨aN, ptsN, hloop, hlkN, hperm⟩ :=
        ih _ rep (sortedIns kf pts) hlk' hndtail hdisj'
      refine ⟨aN, ptsN, ?_, hlkN, ?_⟩
      · conv_lhs => rw [insertLoop]
        rw [hstep]
        exact hloop
      · rw [hkfs]
        refine hperm.trans ?_
        refine ((sortedIns_perm_fresh hfresh).append_right _).trans ?_
        rw [List.cons_append]
        exact (List.perm_middle).symm
    · have hne : recKeyOf r ≠ some ((dp, ai) : Key) := by
        obtain ⟨hdp, hai, -⟩ := parseRecord_ok_inv hr
        rw [recKeyOf, hdp, hai]
        intro hc
        have := Option.some.inj hc
        rw [Prod.mk.injEq] at this
        exact hk ⟨this.1, this.2⟩
      have hkfs : kfsFor dp ai ((xd, xa, kf) :: xs') = kfsFor dp ai xs' := by
        unfold kfsFor
        rw [List.filter_cons_of_neg (by simpa using hk)]
      rw [hkfs] at hnd hdisj
      cases hp : processRecord none false a rep r with
      | mk a1 rest1 =>
        cases rest1 with
        | mk rep1 err1 =>
          have herr : err1 = none := by
            have := @processRecord_none_of_parse none false a rep _ _ _ _ hr
            rw [hp] at this
            exact this
          have hrep : rep1 = rep := by
            have := processRecord_rep_false none a rep r
            rw [hp] at this
            exact this
          subst herr
          rw [hrep] at hp
          have hlk1 : lookupFC a1 dp ai = some (FCurve.mk dp ai pts) := by
            have := lookupFC_processRecord_other none false a rep r dp ai hne
            rw [hp] at this
            rw [← hlk]
            exact this
          obtain ⟨aN, ptsN, hloop, hlkN, hperm⟩ := ih a1 rep pts hlk1 hnd hdisj
          refine ⟨aN, ptsN, ?_, hlkN, ?_⟩
          · conv_lhs => rw [insertLoop]
            rw [hp]
            exact hloop
          · rw [hkfs]
            exact hperm

/-- C9: importing with `replace_curve=false` a valid document whose
points for a channel's key lie at times pairwise distinct and disjoint
from the channel's existing times yields the union of both point sets in
that channel: every prior point survives untouched (with all its
attributes) and every document point for that key is added. -/
theorem c9_merge_disjoint (a : Action) (dp : String) (ai : Int) (doc : List RawRecord)
    (xs : List (String × Int × Keyframe)) (fc0 : FCurve)
    (hfc : lookupFC a dp ai = some fc0)
    (hpar : List.Forall₂ (fun r x => parseRecord r = Except.ok x) doc xs)
    (hnd : ((kfsFor dp ai xs).map (fun kf => kf.co.1)).Nodup)
    (hdisj : ∀ t ∈ timesOf fc0.points, t ∉ (kfsFor dp ai xs).map (fun kf => kf.co.1)) :
    (insertKeyframes a doc none false).2 = none ∧
    ∃ ptsN, lookupFC (insertKeyframes a doc none false).1 dp ai =
        some (FCurve.mk dp ai ptsN) ∧
      ptsN.Perm (fc0.points ++ kfsFor dp ai xs) := by
  obtain ⟨d0, a0, p0⟩ := fc0
  obtain ⟨hdp, hai⟩ := lookupFC_some_fields hfc
  dsimp only at hdp hai
  subst hdp
  subst hai
  obtain ⟨aN, ptsN, hloop, hlkN, hperm⟩ := c9_loop d0 a0 hpar a [] p0 hfc hnd hdisj
  constructor
  · rw [insertKeyframes_snd, hloop]
  · refine ⟨ptsN, ?_, hperm⟩
    rw [insertKeyframes_fst, hloop]
    exact hlkN

/-- C9 witness: one disjoint-time record merged into a channel with one
prior point. -/
theorem c9_merge_disjoint_witness :
    (insertKeyframes (Action.mk "A" [FCurve.mk "location" 0 [egKeyframe]])
      [egRecord2] none false).2 = none ∧
    ∃ ptsN, lookupFC (insertKeyframes (Action.mk "A" [FCurve.mk "location" 0 [egKeyframe]])
        [egRecord2] none false).1 "location" 0 = some (FCurve.mk "location" 0 ptsN) ∧
      ptsN.Perm ((FCurve.mk "location" 0 [egKeyframe]).points ++
        kfsFor "location" 0 [("location", 0, egKeyframe2)]) :=
  c9_merge_disjoint (Action.mk "A" [FCurve.mk "location" 0 [egKeyframe]])
    "location" 0 [egRecord2] [("location", 0, egKeyframe2)]
    (FCurve.mk "location" 0 [egKeyframe])
    (by decide)
    (List.Forall₂.cons rfl List.Forall₂.nil)
    (by decide)
    (by decide)

theorem parse_toJson (kf : Keyframe) (dp : String) (ai : Int) (g : String) :
    parseRecord (keyframeToJson kf dp ai g) = .ok (dp, ai, kf) := rfl

theorem insertLoop_append (filt : Option (List Key)) (rc : Bool) :
    ∀ (l1 : List RawRecord) (a : Action) (rep : List Key) (a1 : Action) (rep1 : List Key),
    insertLoop filt rc a rep l1 = (a1, rep1, none) →
    ∀ l2, insertLoop filt rc a rep (l1 ++ l2) = insertLoop filt rc a1 rep1 l2 := by
  intro l1
  induction l1 with
  | nil =>
    intro a rep a1 rep1 h l2
    cases h
    rfl
  | cons r rest ih =>
    intro a rep a1 rep1 h l2
    rw [List.cons_append]
    conv_lhs => rw [insertLoop]
    rw [insertLoop] at h
    cases hp : processRecord filt rc a rep r with
    | mk a' rest1 =>
      cases rest1 with
      | mk rep' err =>
        rw [hp] at h
        cases err with
        | none => exact ih a' rep' a1 rep1 h l2
        | some e => cases h

theorem exportChannel_records (g : String) (ch : Channel) :
    (exportChannel g ch).1 =
      ch.points.map (fun kf => keyframeToJson kf ch.data_path ch.array_index g) := by
  obtain ⟨dp, ai, pts, s⟩ := ch
  cases s with
  | true =>
    simp [exportChannel, Channel.keyframePoints, Channel.convertToKeyframes,
      Channel.convertToSamples]
  | false =>
    cases pts with
    | nil =>
      simp [exportChannel, Channel.keyframePoints, Channel.convertToKeyframes,
        Channel.convertToSamples]
    | cons p rest =>
      simp [exportChannel, Channel.keyframePoints, Channel.convertToKeyframes,
        Channel.convertToSamples]

theorem insertKey_mem_self (rep : List Key) (k : Key) : k ∈ insertKey rep k := by
  unfold insertKey
  by_cases h : k ∈ rep
  · rw [if_pos h]
    exact h
  · rw [if_neg h]
    exact List.mem_cons_self _ _

theorem c1_blockAux (dp : String) (ai : Int) (g : String) :
    ∀ (rest done : List Keyframe) (nm : String) (curs : List FCurve) (rep : List Key),
    findKey curs dp ai = none →
    ((dp, ai) : Key) ∈ rep →
    (∀ t ∈ timesOf done, ∀ t' ∈ timesOf rest, t < t') →
    List.Pairwise (· < ·) (timesOf rest) →
    insertLoop none true (Action.mk nm (curs ++ [FCurve.mk dp ai done])) rep
        (rest.map (fun kf => keyframeToJson kf dp ai g)) =
      (Action.mk nm (curs ++ [FCurve.mk dp ai (done ++ rest)]), rep, none) := by
  intro rest
  induction rest with
  | nil =>
    intro done nm curs rep hbase hmem hlt hpw
    simp only [List.map_nil, List.append_nil]
    rfl
  | cons kf rest' ih =>
    intro done nm curs rep hbase hmem hlt hpw
    rw [timesOf_cons] at hpw
    have hpw' := List.pairwise_cons.mp hpw
    have hfind : findKey (curs ++ [FCurve.mk dp ai done]) dp ai = some curs.length :=
      findKey_append_of_none curs _ dp ai hbase ⟨rfl, rfl⟩
    have hget : (curs ++ [FCurve.mk dp ai done]).get? curs.length =
        some (FCurve.mk dp ai done) := List.get?_concat_length _ _
    have hrp : (true && !(rep.contains (dp, ai))) = false := by
      rw [contains_true_of_mem hmem]
      rfl
    have hgt : ∀ t ∈ timesOf done, t < kf.co.1 := by
      intro t ht
      exact hlt t ht kf.co.1 (by rw [timesOf_cons]; exact List.mem_cons_self _ _)
    have hfresh : kf.co.1 ∉ timesOf done := by
      intro hc
      exact absurd (hgt kf.co.1 hc) (lt_irrefl _)
    have hstep := processRecord_ok_found_merge (parse_toJson kf dp ai g) none rfl true
      (Action.mk nm (curs ++ [FCurve.mk dp ai done])) rep hfind hget hrp hfresh
    rw [List.map_cons]
    conv_lhs => rw [insertLoop]
    rw [hstep, insertKey_of_mem hmem]
    have hproj : (Action.mk nm (curs ++ [FCurve.mk dp ai done])).fcurves =
        curs ++ [FCurve.mk dp ai done] := rfl
    have hmod : modifyIdx (fun fc0 => { fc0 with points := sortedIns kf fc0.points })
        curs.length (curs ++ [FCurve.mk dp ai done]) =
        curs ++ [FCurve.mk dp ai (done ++ [kf])] := by
      rw [modifyIdx_append_length]
      have h1 : sortedIns kf done = done ++ [kf] := sortedIns_append_gt hgt
      show curs ++ [FCurve.mk dp ai (sortedIns kf done)] = _
      rw [h1]
    rw [hproj, hmod]
    have hlt' : ∀ t ∈ timesOf (done ++ [kf]), ∀ t' ∈ timesOf rest', t < t' := by
      intro t ht t' ht'
      have htt : timesOf (done ++ [kf]) = timesOf done ++ [kf.co.1] := by
        unfold timesOf
        rw [List.map_append]
        rfl
      rw [htt] at ht
      rcases List.mem_append.mp ht with h1 | h1
      · exact hlt t h1 t' (by rw [timesOf_cons]; exact List.mem_cons_of_mem _ ht')
      · have : t = kf.co.1 := by simpa using h1
        subst this
        exact hpw'.1 t' ht'
    have hres := ih (done ++ [kf]) nm curs rep hbase hmem hlt' hpw'.2
    have hassoc : (done ++ [kf]) ++ rest' = done ++ kf :: rest' := by
      rw [List.append_assoc]
      rfl
    rw [hassoc] at hres
    exact hres

theorem c1_block (dp : String) (ai : Int) (g : String) (pts : List Keyframe)
    (nm : String) (curs : List FCurve) (rep : List Key)
    (hne : pts ≠ []) (hbase : findKey curs dp ai = none)
    (hpw : List.Pairwise (· < ·) (timesOf pts)) :
    insertLoop none true (Action.mk nm curs) rep
        (pts.map (fun kf => keyframeToJson kf dp ai g)) =
      (Action.mk nm (curs ++ [FCurve.mk dp ai pts]), insertKey rep (dp, ai), none) := by
  cases pts with
  | nil => exact absurd rfl hne
  | cons kf0 rest =>
    rw [timesOf_cons] at hpw
    have hpw' := List.pairwise_cons.mp hpw
    have hstep := processRecord_ok_notfound (parse_toJson kf0 dp ai g) none rfl true
      (Action.mk nm curs) rep hbase
    rw [List.map_cons]
    conv_lhs => rw [insertLoop]
    rw [hstep]
    have hlt : ∀ t ∈ timesOf [kf0], ∀ t' ∈ timesOf rest, t < t' := by
      intro t ht t' ht'
      have : t = kf0.co.1 := by simpa [timesOf] using ht
      subst this
      exact hpw'.1 t' ht'
    have hres := c1_blockAux dp ai g rest [kf0] nm curs (insertKey rep (dp, ai)) hbase
      (insertKey_mem_self rep (dp, ai)) hlt hpw'.2
    have hcons : ([kf0] ++ rest : List Keyframe) = kf0 :: rest := rfl
    rw [hcons] at hres
    exact hres

theorem keysOf_map_chToFC (chs : List Channel) :
    keysOf (chs.map chToFC) = chs.map chKey := by
  unfold keysOf
  rw [List.map_map]
  rfl

theorem c1_group (g : String) :
    ∀ (chs : List Channel) (nm : String) (curs : List FCurve) (rep : List Key),
    (keysOf curs ++ chs.map chKey).Nodup →
    (∀ ch ∈ chs, List.Pairwise (· < ·) (timesOf ch.points)) →
    (∀ ch ∈ chs, ch.points ≠ []) →
    ∃ rep', insertLoop none true (Action.mk nm curs) rep (exportChannels g chs).1 =
        (Action.mk nm (curs ++ chs.map chToFC), rep', none) := by
  intro chs
  induction chs with
  | nil =>
    intro nm curs rep hu hs hne
    refine ⟨rep, ?_⟩
    show insertLoop none true (Action.mk nm curs) rep [] = _
    rw [List.map_nil, List.append_nil]
    rfl
  | cons ch rest ih =>
    intro nm curs rep hu hs hne
    have hkmem : chKey ch ∉ keysOf curs := by
      rw [List.map_cons] at hu
      obtain ⟨h1, h2, hdisj⟩ := List.nodup_append.mp hu
      intro hc
      exact hdisj hc (List.mem_cons_self _ _)
    have hbase : findKey curs ch.data_path ch.array_index = none :=
      findKey_eq_none_of_not_mem hkmem
    have hblock := c1_block ch.data_path ch.array_index g ch.points nm curs rep
      (hne ch (List.mem_cons_self _ _)) hbase (hs ch (List.mem_cons_self _ _))
    have hrec : (exportChannels g (ch :: rest)).1 =
        (exportChannel g ch).1 ++ (exportChannels g rest).1 := rfl
    rw [hrec, exportChannel_records]
    rw [insertLoop_append none true _ _ _ _ _ hblock _]
    have hu' : (keysOf (curs ++ [chToFC ch]) ++ rest.map chKey).Nodup := by
      rw [keysOf_append]
      have hsing : keysOf [chToFC ch] = [chKey ch] := rfl
      rw [hsing, List.append_assoc]
      have hca : ([chKey ch] ++ rest.map chKey : List Key) = chKey ch :: rest.map chKey := rfl
      rw [hca]
      rw [List.map_cons] at hu
      exact hu
    obtain ⟨rep', hres⟩ := ih nm (curs ++ [chToFC ch]) (insertKey rep (chKey ch))
      hu' (fun c hc => hs c (List.mem_cons_of_mem _ hc))
      (fun c hc => hne c (List.mem_cons_of_mem _ hc))
    refine ⟨rep', ?_⟩
    have hassoc : (curs ++ [chToFC ch]) ++ rest.map chToFC =
        curs ++ (ch :: rest).map chToFC := by
      rw [List.append_assoc]
      rfl
    rw [hassoc] at hres
    exact hres

theorem c1_groups :
    ∀ (gs : List (String × List Channel)) (nm : String) (curs : List FCurve)
      (rep : List Key),
    (keysOf curs ++ ((gs.map Prod.snd).join).map chKey).Nodup →
    (∀ ch ∈ (gs.map Prod.snd).join, List.Pairwise (· < ·) (timesOf ch.points)) →
    (∀ ch ∈ (gs.map Prod.snd).join, ch.points ≠ []) →
    ∃ rep', insertLoop none true (Action.mk nm curs) rep (exportGroups gs).1 =
        (Action.mk nm (curs ++ ((gs.map Prod.snd).join).map chToFC), rep', none) := by
  intro gs
  induction gs with
  | nil =>
    intro nm curs rep hu hs hne
    refine ⟨rep, ?_⟩
    show insertLoop none true (Action.mk nm curs) rep [] = _
    rw [show (((List.nil.map Prod.snd).join : List Channel)).map chToFC = [] from rfl,
      List.append_nil]
    rfl
  | cons p rest ih =>
    obtain ⟨g, chs⟩ := p
    intro nm curs rep hu hs hne
    have hjoin : (((g, chs) :: rest).map Prod.snd).join = chs ++ (rest.map Prod.snd).join := rfl
    rw [hjoin] at hu hs hne ⊢
    have hu1 : (keysOf curs ++ chs.map chKey).Nodup := by
      rw [List.map_append, ← List.append_assoc] at hu
      exact hu.of_append_left
    obtain ⟨rep1, hblock⟩ := c1_group g chs nm curs rep hu1
      (fun c hc => hs c (List.mem_append_left _ hc))
      (fun c hc => hne c (List.mem_append_left _ hc))
    have hrec : (exportGroups ((g, chs) :: rest)).1 =
        (exportChannels g chs).1 ++ (exportGroups rest).1 := rfl
    rw [hrec]
    rw [insertLoop_append none true _ _ _ _ _ hblock _]
    have hu2 : (keysOf (curs ++ chs.map chToFC) ++
        ((rest.map Prod.snd).join).map chKey).Nodup := by
      rw [keysOf_append, keysOf_map_chToFC, List.append_assoc]
      rw [List.map_append] at hu
      exact hu
    obtain ⟨rep', hres⟩ := ih nm (curs ++ chs.map chToFC) rep1 hu2
      (fun c hc => hs c (List.mem_append_right _ hc))
      (fun c hc => hne c (List.mem_append_right _ hc))
    refine ⟨rep', ?_⟩
    have hassoc : (curs ++ chs.map chToFC) ++ ((rest.map Prod.snd).join).map chToFC =
        curs ++ (chs ++ (rest.map Prod.snd).join).map chToFC := by
      rw [List.map_append, List.append_assoc]
    rw [hassoc] at hres
    exact hres

theorem find_map_chToFC (l : List Channel) (dp : String) (ai : Int) :
    ((l.map chToFC).find? (fun fc => decide (fc.data_path = dp ∧ fc.array_index = ai))).map
        (fun fc => fc.points) =
      (l.find? (fun ch => decide (ch.data_path = dp ∧ ch.array_index = ai))).map
        (fun ch => ch.points) := by
  induction l with
  | nil => rfl
  | cons ch rest ih =>
    rw [List.map_cons]
    by_cases hc : ch.data_path = dp ∧ ch.array_index = ai
    · rw [List.find?_cons_of_pos _ (by simpa using hc),
        List.find?_cons_of_pos _ (by simpa [chToFC] using hc)]
      rfl
    · rw [List.find?_cons_of_neg _ (by simpa using hc),
        List.find?_cons_of_neg _ (by simpa [chToFC] using hc)]
      exact ih

/-- C1: exporting a container whose channels are all stored in keyframe
form (with unique keys and strictly increasing per-channel times, the
host invariants) and importing the resulting document through the
action-importer path — which starts from a fresh empty action —
reproduces, for every key, exactly the original channel's ordered
control-point sequence, all attributes included; rationals model the
float payloads, so attribute equality is exact and in particular within
any epsilon. -/
theorem c1_round_trip (ea : ExpAction) (obj : Obj)
    (hu : ((channelsOf ea).map chKey).Nodup)
    (hs : ∀ ch ∈ channelsOf ea, List.Pairwise (· < ·) (timesOf ch.points))
    (hne : ∀ ch ∈ channelsOf ea, ch.points ≠ []) :
    (actionImporterExecute (Except.ok (exportAction ea).1) obj).2 = none ∧
    ∃ act, (actionImporterExecute (Except.ok (exportAction ea).1) obj).1 =
        Obj.mk (some (AnimData.mk (some act))) ∧
      ∀ dp ai, (lookupFC act dp ai).map (fun fc => fc.points) =
        (lookupCh ea dp ai).map (fun ch => ch.points) := by
  have hdoc : (exportAction ea).1 =
      ({ name := some ea.name, keyframes := some (exportGroups ea.groups).1 } : RawDoc) := rfl
  rw [hdoc, actionImporter_ok]
  have hu2 : (keysOf ([] : List FCurve) ++
      ((ea.groups.map Prod.snd).join).map chKey).Nodup := by
    simpa [keysOf, channelsOf] using hu
  obtain ⟨rep', hloop⟩ := c1_groups ea.groups ea.name [] [] hu2 hs hne
  constructor
  · rw [insertKeyframes_snd, hloop]
  · refine ⟨(insertKeyframes (Action.mk ea.name []) (exportGroups ea.groups).1 none true).1,
      rfl, ?_⟩
    intro dp ai
    rw [insertKeyframes_fst, hloop, lookupFC_eq_find]
    have h1 : (Action.mk ea.name
        (([] : List FCurve) ++ ((ea.groups.map Prod.snd).join).map chToFC)).fcurves =
        ((ea.groups.map Prod.snd).join).map chToFC := by
      show (([] : List FCurve) ++ ((ea.groups.map Prod.snd).join).map chToFC) = _
      rw [List.nil_append]
    rw [h1, find_map_chToFC]
    rfl

/-- C1 witness: a concrete container with one two-point channel. -/
theorem c1_round_trip_witness :
    (actionImporterExecute (Except.ok (exportAction egExpAction).1) egObjNoAnim).2 = none ∧
    ∃ act, (actionImporterExecute (Except.ok (exportAction egExpAction).1) egObjNoAnim).1 =
        Obj.mk (some (AnimData.mk (some act))) ∧
      ∀ dp ai, (lookupFC act dp ai).map (fun fc => fc.points) =
        (lookupCh egExpAction dp ai).map (fun ch => ch.points) :=
  c1_round_trip egExpAction egObjNoAnim (by decide) (by decide) (by decide)

end AnimIO
